import Mathlib

/-!
# A formal model of the sgrep semantic code-search core

This file shallowly embeds the core data structures and algorithms of the
sgrep code-search engine (a Rust program) and proves, or refutes, the
behavioural claims made by its specification.

Modelling conventions, used uniformly below:

* Rust `HashMap`s are modelled as association lists (`List (κ × α)`); an
  insertion replaces the binding of an existing key, and `values` order is the
  list order (the Rust iteration order of a `HashMap` is unspecified, so every
  theorem proved here is stated either per-key or for an arbitrary list
  order).
* `f32` scalars are modelled as real numbers; `ln`, `exp` and `sqrt` are the
  exact real functions.  Theorems about scores are therefore about the exact
  arithmetic the code writes down, not about rounding.
* Byte strings manipulated byte-by-byte (the chunker) are modelled as
  `List Char`, one character per byte; `str::len()` is list length.
  For `String`-valued fields `str::len()` is modelled as `String.length`.
* Fallible Rust functions (`anyhow::Result`) are modelled with `Except String`
  or `Option`.
* Calls into external libraries (the usearch ANN structure, the remote
  reranker HTTP endpoints, the tree-sitter parser, the transformer forward
  pass) are modelled at their interface: the parse tree, the remote outcome or
  the embedding function is an explicit argument of the model.
-/

namespace Sgrep

/-! ## Association-list primitives (model of `std::collections::HashMap`) -/

/-- `HashMap::insert`: replace the binding of `k` (if any) by `(k, v)`. -/
def insertA {κ α : Type} [DecidableEq κ] (l : List (κ × α)) (k : κ) (v : α) :
    List (κ × α) :=
  if k ∈ l.map Prod.fst then
    l.map (fun p => if p.1 = k then (k, v) else p)
  else
    l ++ [(k, v)]

/-- `HashMap::get`: first binding of `k`. -/
def lookupA {κ α : Type} [DecidableEq κ] : List (κ × α) → κ → Option α
  | [], _ => none
  | (k', v) :: l, k => if k' = k then some v else lookupA l k

/-- `HashMap::remove`: drop the binding of `k`. -/
def eraseA {κ α : Type} [DecidableEq κ] (l : List (κ × α)) (k : κ) :
    List (κ × α) :=
  l.filter (fun p => p.1 ≠ k)

/-- `HashMap::keys`. -/
def keysA {κ α : Type} (l : List (κ × α)) : List κ :=
  l.map Prod.fst

/-- `HashMap::values`. -/
def valuesA {κ α : Type} (l : List (κ × α)) : List α :=
  l.map Prod.snd

/-- Accumulator loop for `splitWhitespace` (the accumulator holds the
current token, reversed). -/
def splitWsAux : List Char → List Char → List (List Char)
  | acc, [] => if acc = [] then [] else [acc.reverse]
  | acc, c :: rest =>
      if c.isWhitespace then
        if acc = [] then splitWsAux [] rest else acc.reverse :: splitWsAux [] rest
      else splitWsAux (c :: acc) rest

/-- Tokenisation used throughout the code: Rust `str::split_whitespace`
(whitespace-separated maximal non-empty tokens), on the byte-list model of
strings. -/
def splitWhitespace (s : List Char) : List (List Char) :=
  splitWsAux [] s

/-- Rust `str::to_lowercase`, modelled per character. -/
def lowerCh (s : List Char) : List Char :=
  s.map Char.toLower

/-! ## Model of `core/embeddings.rs` (vector operations) -/

/-- `a.iter().zip(b.iter()).map(|(x, y)| x * y).sum()`. -/
noncomputable def dotList (a b : List ℝ) : ℝ :=
  (List.zipWith (fun x y => x * y) a b).sum

/-- `v.iter().map(|x| x * x).sum()`. -/
noncomputable def sumSq (v : List ℝ) : ℝ :=
  (v.map (fun x => x * x)).sum

/-- `cosine_similarity` from `core/embeddings.rs`: returns `0.0` on length
mismatch, empty input or a zero norm, otherwise `dot / (‖a‖ * ‖b‖)`. -/
noncomputable def cosine_similarity (a b : List ℝ) : ℝ :=
  if a.length ≠ b.length ∨ a = [] then 0
  else
    let dot := dotList a b
    let norm_a := Real.sqrt (sumSq a)
    let norm_b := Real.sqrt (sumSq b)
    if norm_a = 0 ∨ norm_b = 0 then 0 else dot / (norm_a * norm_b)

/-- `colbert_max_sim` from `core/embeddings.rs`: mean over query tokens of the
maximum cosine similarity to any document token. -/
noncomputable def colbert_max_sim (query_tokens doc_tokens : List (List ℝ)) : ℝ :=
  if query_tokens = [] ∨ doc_tokens = [] then 0
  else
    ((query_tokens.map (fun q =>
        ((doc_tokens.map (fun d => cosine_similarity q d)).foldl max (-(1 : ℝ) / 0)))).sum)
      / (query_tokens.length : ℝ)

/-! ## Model of `core/store.rs` and `core/vector_index.rs` data types -/

/-- `FileChunk` from `core/store.rs`. -/
structure FileChunk where
  id : String
  file_path : String
  content : List Char
  start_line : Nat
  end_line : Nat
  chunk_type : String
  language : Option String
  embedding : List ℝ
  token_embeddings : Option (List (List ℝ))
  symbol_name : Option String
  parent_name : Option String
  hierarchy_path : Option String

/-- `IndexedFile` from `core/store.rs`. -/
structure IndexedFile where
  path : String
  hash : String
  chunks : List String
  indexed_at : String

/-- `KnowledgeGraph` from `core/graph.rs`, reduced to the shape of its six
tables; only `clear` (which empties all of them) matters to the claims. -/
structure KnowledgeGraph where
  repos : List (String × String)
  gfiles : List (String × String)
  commits : List (String × String)
  symbols : List (String × String)
  edges_out : List (String × List String)
  edges_in : List (String × List String)

/-- `KnowledgeGraph::new` / `Default`. -/
def KnowledgeGraph.new : KnowledgeGraph :=
  ⟨[], [], [], [], [], []⟩

/-- `KnowledgeGraph::clear`. -/
def KnowledgeGraph.clear (_g : KnowledgeGraph) : KnowledgeGraph :=
  KnowledgeGraph.new

/-- `VectorIndex` from `core/vector_index.rs`.  The usearch structure is
modelled by the list of `(key, vector)` pairs that were inserted into it
(`index = none` means the structure has not been initialised). -/
structure VectorIndex where
  index : Option (List (Nat × List ℝ))
  id_to_chunk : List (Nat × String)
  chunk_to_id : List (String × Nat)
  next_id : Nat
  dimensions : Nat
  threshold : Nat

/-- `VectorIndex::new`. -/
def VectorIndex.new (dimensions : Nat) : VectorIndex :=
  ⟨none, [], [], 0, dimensions, 1000⟩

/-- `VectorIndex::with_threshold`. -/
def VectorIndex.with_threshold (vi : VectorIndex) (t : Nat) : VectorIndex :=
  { vi with threshold := t }

/-- `VectorIndex::add`.  Bails out (state unchanged) on dimension mismatch;
initialises the usearch structure once the mapping reaches `threshold`
(`rebuild_index` in the source is a no-op placeholder, so vectors added
before initialisation are not re-added). -/
def VectorIndex.add (vi : VectorIndex) (chunk_id : String) (embedding : List ℝ) :
    Except String VectorIndex :=
  if embedding.length ≠ vi.dimensions then
    .error "Embedding dimension mismatch"
  else
    let vi :=
      if vi.index.isNone ∧ vi.threshold ≤ vi.id_to_chunk.length then
        { vi with index := some [] }
      else vi
    let key := vi.next_id
    let vi := { vi with
      next_id := vi.next_id + 1
      id_to_chunk := insertA vi.id_to_chunk key chunk_id
      chunk_to_id := insertA vi.chunk_to_id chunk_id key }
    match vi.index with
    | some entries => .ok { vi with index := some (entries ++ [(key, embedding)]) }
    | none => .ok vi

/-- `VectorIndex::remove`. -/
def VectorIndex.remove (vi : VectorIndex) (chunk_id : String) :
    VectorIndex × Bool :=
  match lookupA vi.chunk_to_id chunk_id with
  | some key =>
      ({ vi with
          chunk_to_id := eraseA vi.chunk_to_id chunk_id
          id_to_chunk := eraseA vi.id_to_chunk key
          index := vi.index.map (fun entries => entries.filter (fun e => e.1 ≠ key)) },
        true)
  | none => (vi, false)

/-- `VectorIndex::is_indexed`. -/
def VectorIndex.is_indexed (vi : VectorIndex) : Bool :=
  vi.index.isSome

/-- `VectorIndex.len`. -/
def VectorIndex.lenOf (vi : VectorIndex) : Nat :=
  vi.id_to_chunk.length

/-- Cosine distance, the metric the usearch structure is configured with
(`MetricKind::Cos`). -/
noncomputable def cosDist (a b : List ℝ) : ℝ :=
  1 - cosine_similarity a b

/-- Model of `usearch::Index::search`: the stored entries ordered by
ascending cosine distance to the query, truncated to `limit`, as
`(key, distance)` pairs.  (usearch is approximate; the model is its exact
idealisation, which is all the claims rely on.) -/
noncomputable def usearchSearch (entries : List (Nat × List ℝ)) (query : List ℝ)
    (limit : Nat) : List (Nat × ℝ) :=
  letI : DecidableRel (α := Nat × ℝ)
      (fun p q => p.2 ≤ q.2) := fun _ _ => Classical.dec _
  ((entries.map (fun e => (e.1, cosDist query e.2))).insertionSort
      (fun p q => p.2 ≤ q.2)).take limit

/-- `VectorIndex::search`: empty when nothing is stored or the structure is
uninitialised; otherwise map usearch keys back through `id_to_chunk`,
converting distance to `1 - distance`. -/
noncomputable def VectorIndex.search (vi : VectorIndex) (query : List ℝ)
    (limit : Nat) : List (String × ℝ) :=
  if vi.id_to_chunk = [] then []
  else
    match vi.index with
    | some entries =>
        (usearchSearch entries query limit).filterMap (fun kd =>
          (lookupA vi.id_to_chunk kd.1).map (fun cid => (cid, 1 - kd.2)))
    | none => []

/-- `VectorStore` from `core/store.rs`. -/
structure VectorStore where
  files : List (String × IndexedFile)
  chunks : List (String × FileChunk)
  bm25_idf : List (List Char × ℝ)
  doc_count : Nat
  ann_index : Option VectorIndex
  ann_threshold : Nat
  graph : KnowledgeGraph

/-- `VectorStore::default`. -/
def VectorStore.default : VectorStore :=
  ⟨[], [], [], 0, none, 1000, KnowledgeGraph.new⟩

/-- `VectorStore::build_ann_index`: dimension from the first chunk (768 when
empty), a fresh `VectorIndex` with threshold 0, then `add` every chunk with a
non-empty embedding, in table order. -/
def VectorStore.build_ann_index (st : VectorStore) :
    Except String VectorStore := do
  let dim := ((valuesA st.chunks).head?.map (fun c => c.embedding.length)).getD 768
  let init := (VectorIndex.new dim).with_threshold 0
  let index ← (valuesA st.chunks).foldlM (fun idx c =>
    if !c.embedding.isEmpty then idx.add c.id c.embedding else pure idx) init
  pure { st with ann_index := some index }

/-- `VectorStore::maybe_build_ann_index`. -/
def VectorStore.maybe_build_ann_index (st : VectorStore) :
    Except String VectorStore :=
  if st.ann_threshold ≤ st.chunks.length ∧ st.ann_index.isNone then
    st.build_ann_index
  else
    .ok st

/-- `VectorStore::ann_search`. -/
noncomputable def VectorStore.ann_search (st : VectorStore) (query : List ℝ)
    (limit : Nat) : Option (List (String × ℝ)) :=
  st.ann_index.bind (fun idx =>
    if idx.is_indexed then some (idx.search query limit) else none)

/-- `VectorStore::has_ann_index`. -/
def VectorStore.has_ann_index (st : VectorStore) : Bool :=
  (st.ann_index.map VectorIndex.is_indexed).getD false

/-- `VectorStore::clear`. -/
def VectorStore.clear (st : VectorStore) : VectorStore :=
  { st with
    files := []
    chunks := []
    bm25_idf := []
    doc_count := 0
    graph := st.graph.clear }

/-- `VectorStore::add_file`. -/
def VectorStore.add_file (st : VectorStore) (file : IndexedFile) : VectorStore :=
  { st with files := insertA st.files file.path file }

/-- `VectorStore::add_chunk`. -/
def VectorStore.add_chunk (st : VectorStore) (chunk : FileChunk) : VectorStore :=
  { st with chunks := insertA st.chunks chunk.id chunk }

/-- `VectorStore::remove_file`. -/
def VectorStore.remove_file (st : VectorStore) (path : String) : VectorStore :=
  match lookupA st.files path with
  | some file =>
      { st with
        files := eraseA st.files path
        chunks := file.chunks.foldl (fun cs cid => eraseA cs cid) st.chunks }
  | none => st

/-- `VectorStore::file_needs_update`. -/
def VectorStore.file_needs_update (st : VectorStore) (path new_hash : String) :
    Bool :=
  match lookupA st.files path with
  | some file => file.hash ≠ new_hash
  | none => true

/-- The per-chunk term set of `update_bm25_stats`: distinct whitespace tokens
of the lowercased content (a Rust `HashSet`). -/
def chunkTerms (c : FileChunk) : List (List Char) :=
  (splitWhitespace (lowerCh c.content)).dedup

/-- One `*term_doc_freq.entry(term).or_insert(0) += 1` step. -/
def bumpA {κ : Type} [DecidableEq κ] : List (κ × Nat) → κ → List (κ × Nat)
  | [], t => [(t, 1)]
  | (k, v) :: rest, t => if k = t then (k, v + 1) :: rest else (k, v) :: bumpA rest t

/-- The document-frequency table accumulated over the chunk list. -/
def termDocFreq (chunks : List FileChunk) : List (List Char × Nat) :=
  chunks.foldl (fun acc c => (chunkTerms c).foldl bumpA acc) []

/-- The idf formula of `update_bm25_stats`:
`ln((N - df + 0.5) / (df + 0.5) + 1)`. -/
noncomputable def idfFormula (total_docs df : Nat) : ℝ :=
  Real.log (((total_docs : ℝ) - (df : ℝ) + 0.5) / ((df : ℝ) + 0.5) + 1)

/-- `VectorStore::update_bm25_stats`. -/
noncomputable def VectorStore.update_bm25_stats (st : VectorStore) : VectorStore :=
  let total_docs := st.chunks.length
  let tdf := termDocFreq (valuesA st.chunks)
  { st with
    bm25_idf := tdf.map (fun p => (p.1, idfFormula total_docs p.2))
    doc_count := total_docs }

/-! ## Model of `core/search.rs` -/

/-- `SearchResult` from `core/search.rs`. -/
structure SearchResult where
  chunk : FileChunk
  score : ℝ
  bm25_score : ℝ
  vector_score : ℝ
  colbert_score : Option ℝ

/-- `HybridSearcher` from `core/search.rs`. -/
structure HybridSearcher where
  bm25_weight : ℝ
  vector_weight : ℝ
  k1 : ℝ
  b : ℝ

/-- `HybridSearcher::default` (weights 0.3 / 0.7, k1 = 1.2, b = 0.75). -/
noncomputable def HybridSearcher.mkDefault : HybridSearcher :=
  ⟨0.3, 0.7, 1.2, 0.75⟩

/-- Term frequency of `term` in the lowercased content, whitespace-tokenised
(the `term_freq` HashMap of `compute_bm25`). -/
def termFreqIn (content_lower : List Char) (term : List Char) : Nat :=
  ((splitWhitespace content_lower).filter (fun w => w = term)).length

/-- `HybridSearcher::compute_bm25`. -/
noncomputable def HybridSearcher.compute_bm25 (hs : HybridSearcher)
    (content : List Char) (query_terms : List (List Char))
    (idf : List (List Char × ℝ)) (avg_doc_len : ℝ) : ℝ :=
  let doc_len : ℝ := (content.length : ℝ)
  let content_lower := lowerCh content
  (query_terms.map (fun term =>
    let tf : ℝ := (termFreqIn content_lower term : ℝ)
    let term_idf : ℝ := (lookupA idf term).getD 0
    if 0 < tf then
      term_idf * ((tf * (hs.k1 + 1)) /
        (tf + hs.k1 * (1 - hs.b + hs.b * doc_len / avg_doc_len)))
    else 0)).sum

/-- `HybridSearcher::normalize_bm25`: the sigmoid `1 / (1 + exp(-0.1 s))`. -/
noncomputable def normalize_bm25 (score : ℝ) : ℝ :=
  1 / (1 + Real.exp (-score * 0.1))

/-- `Path::extension()` of a file path, lowercased — `None` when the file name
has no dot or only a leading dot. -/
def extensionLower (path : String) : Option String :=
  let name := ((path.splitOn "/").getLast? ).getD ""
  match (name.splitOn ".") with
  | [] => none
  | [_] => none
  | first :: rest =>
      if first = "" ∧ rest.length = 1 then none
      else (rest.getLast?).map String.toLower

/-- The file-type filter of `HybridSearcher::search`. -/
def fileTypeOk (file_types : Option (List String)) (chunk : FileChunk) : Bool :=
  match file_types with
  | some types =>
      match extensionLower chunk.file_path with
      | some ext => types.any (fun t => t.toLower = ext)
      | none => false
  | none => true

/-- The per-candidate scoring step of `HybridSearcher::search`. -/
noncomputable def HybridSearcher.scoreChunk (hs : HybridSearcher)
    (query_embedding : List ℝ) (query_terms : List (List Char))
    (bm25_idf : List (List Char × ℝ)) (avg_doc_len : ℝ) (use_colbert : Bool)
    (query_token_embeddings : Option (List (List ℝ))) (chunk : FileChunk) :
    SearchResult :=
  let vector_score := cosine_similarity query_embedding chunk.embedding
  let bm25_score := hs.compute_bm25 chunk.content query_terms bm25_idf avg_doc_len
  let colbert_score :=
    if use_colbert then
      query_token_embeddings.bind (fun q_tokens =>
        chunk.token_embeddings.map (fun d_tokens => colbert_max_sim q_tokens d_tokens))
    else none
  let combined_score :=
    match colbert_score with
    | some col_score =>
        hs.vector_weight * 0.5 * vector_score + hs.vector_weight * 0.5 * col_score
          + hs.bm25_weight * normalize_bm25 bm25_score
    | none =>
        hs.vector_weight * vector_score + hs.bm25_weight * normalize_bm25 bm25_score
  ⟨chunk, combined_score, bm25_score, vector_score, colbert_score⟩

/-- Descending-score order used by `results.sort_by(|a, b| b.score.partial_cmp(&a.score))`. -/
def scoreGe (a b : SearchResult) : Prop :=
  b.score ≤ a.score

noncomputable instance : DecidableRel scoreGe := fun _ _ => Classical.dec _

/-- The `avg_doc_len` computation at the top of `HybridSearcher::search`:
mean content length over the store (500.0 when the store is empty). -/
noncomputable def avgDocLen (st : VectorStore) : ℝ :=
  if 0 < st.doc_count then
    (((valuesA st.chunks).map (fun c => (c.content.length : ℝ))).sum)
      / (st.doc_count : ℝ)
  else 500

/-- `HybridSearcher::search` from `core/search.rs`. -/
noncomputable def HybridSearcher.search (hs : HybridSearcher) (st : VectorStore)
    (query_embedding : List ℝ) (query_text : List Char) (limit : Nat)
    (file_types : Option (List String)) (use_colbert : Bool)
    (query_token_embeddings : Option (List (List ℝ))) : List SearchResult :=
  let query_terms := splitWhitespace (lowerCh query_text)
  let avg_doc_len : ℝ := avgDocLen st
  let ann_candidates := st.ann_search query_embedding (limit * 3)
  let candidates :=
    match ann_candidates with
    | some cands => cands.filterMap (fun (p : String × ℝ) => lookupA st.chunks p.1)
    | none => valuesA st.chunks
  let results := (candidates.filter (fileTypeOk file_types)).map
    (hs.scoreChunk query_embedding query_terms st.bm25_idf avg_doc_len
      use_colbert query_token_embeddings)
  (results.insertionSort scoreGe).take limit

/-! ## Model of `core/reranker.rs` -/

/-- `simple_rerank`: boost each result's score by `0.05` per distinct
lowercased query term occurring as a substring of the lowercased content,
then re-sort descending. -/
noncomputable def simple_rerank (query : List Char) (results : List SearchResult) :
    List SearchResult :=
  let query_terms := (splitWhitespace (lowerCh query)).dedup
  let boosted := results.map (fun r =>
    let content_lower := lowerCh r.chunk.content
    let boost : ℝ :=
      ((query_terms.filter
          (fun t => decide (List.IsInfix t content_lower))).length : ℝ)
        * 0.05
    { r with score := r.score + boost })
  boosted.insertionSort scoreGe

/-- `Reranker::rerank`.  The two remote calls are modelled by their outcomes:
`jina` is `some l` when the Jina call succeeded with list `l`, `none` when it
failed (missing key, transport or non-2xx); `cohere_key` is whether
`COHERE_API_KEY` is set, and `cohere` the outcome of the Cohere call. -/
def Reranker.rerank (jina : Option (List SearchResult)) (cohere_key : Bool)
    (cohere : Option (List SearchResult)) (results : List SearchResult)
    (top_n : Nat) : List SearchResult :=
  if results.isEmpty then results
  else
    match jina with
    | some reranked => reranked
    | none =>
        match cohere_key, cohere with
        | true, some reranked => reranked
        | _, _ => results.take top_n

/-! ## Model of `core/local_embeddings.rs` and `core/hybrid_embedder.rs` -/

/-- `ModelType` from `core/local_embeddings.rs`: the standard bidirectional
encoder (`Bert`) vs the rotary-position CodeRankEmbed encoder (`NomicBert`). -/
inductive ModelType where
  | Bert
  | NomicBert
deriving DecidableEq

/-- A `LocalEmbedder`, reduced to the data its query path consults. -/
structure LocalEmbedder where
  model : ModelType

/-- The fixed marker string prepended to queries. -/
def queryMarker : String := "search_query: "

/-- The text `LocalEmbedder::embed_query` hands to `embed_single`: the source
applies `format!("search_query: {}", query)` unconditionally, for every model
variant. -/
def LocalEmbedder.embed_query_input (_e : LocalEmbedder) (query : String) :
    String :=
  queryMarker ++ query

/-- The texts `HybridEmbedder::embed_query` hands to its two sub-embedders
(BGE side, CodeRankEmbed side): it calls `embed_query` on both. -/
def HybridEmbedder.embed_query_inputs (query : String) : String × String :=
  ((LocalEmbedder.mk .Bert).embed_query_input query,
    (LocalEmbedder.mk .NomicBert).embed_query_input query)

/-- What the specification says `embed_query` should embed: the query
prefixed only for the rotary-position (CodeRankEmbed) encoder.
Spec-side definition, for comparison with `LocalEmbedder.embed_query_input`. -/
def specEmbedQueryInput (e : LocalEmbedder) (query : String) : String :=
  if e.model = ModelType.NomicBert then queryMarker ++ query else query

/-! ## Model of `core/treesitter_chunker.rs`

The tree-sitter parser is an external library; the model takes its output,
the parse tree, as an argument.  A `TSNode` carries the data the chunker
reads from a tree-sitter node: kind, byte range, row range, the named fields
(for `child_by_field_name`, each mapped to that child's byte range) and the
ordered children. -/

/-- `ChunkType` from `core/treesitter_chunker.rs`. -/
inductive ChunkType where
  | Function
  | Method
  | Class
  | Struct
  | Enum
  | Trait
  | Interface
  | Module
  | Import
  | Comment
  | Code
deriving DecidableEq, Repr

/-- `Chunk` from `core/treesitter_chunker.rs` (content as a byte list). -/
structure Chunk where
  content : List Char
  start_line : Nat
  end_line : Nat
  start_byte : Nat
  end_byte : Nat
  chunk_type : ChunkType
  name : Option String
  parent_name : Option String
deriving DecidableEq, Repr

/-- `LanguageConfig` (without the external grammar handle). -/
structure LanguageConfig where
  function_types : List String
  class_types : List String
  import_types : List String
  comment_types : List String
  name_field : String

/-- `get_language_config("rust")`. -/
def rustConfig : LanguageConfig :=
  ⟨["function_item", "impl_item"],
    ["struct_item", "enum_item", "trait_item", "type_item"],
    ["use_declaration"],
    ["line_comment", "block_comment"],
    "name"⟩

/-- `get_language_config("python")`. -/
def pythonConfig : LanguageConfig :=
  ⟨["function_definition", "async_function_definition"],
    ["class_definition"],
    ["import_statement", "import_from_statement"],
    ["comment", "string"],
    "name"⟩

/-- `get_language_config("go")`. -/
def goConfig : LanguageConfig :=
  ⟨["function_declaration", "method_declaration"],
    ["type_declaration"],
    ["import_declaration"],
    ["comment"],
    "name"⟩

/-- A tree-sitter syntax node, as the chunker observes it. -/
inductive TSNode where
  | mk (kind : String) (start_byte end_byte start_row end_row : Nat)
      (fields : List (String × Nat × Nat)) (children : List TSNode)

def TSNode.kind : TSNode → String
  | .mk k _ _ _ _ _ _ => k

def TSNode.start_byte : TSNode → Nat
  | .mk _ sb _ _ _ _ _ => sb

def TSNode.end_byte : TSNode → Nat
  | .mk _ _ eb _ _ _ _ => eb

def TSNode.start_row : TSNode → Nat
  | .mk _ _ _ sr _ _ _ => sr

def TSNode.end_row : TSNode → Nat
  | .mk _ _ _ _ er _ _ => er

def TSNode.fields : TSNode → List (String × Nat × Nat)
  | .mk _ _ _ _ _ fs _ => fs

def TSNode.children : TSNode → List TSNode
  | .mk _ _ _ _ _ _ cs => cs

/-- `&content[s..e]` on the byte-list model of the source. -/
def sliceBytes (src : List Char) (s e : Nat) : List Char :=
  (src.take e).drop s

/-- Substring test (`str::contains`). -/
def strHasSub (s pat : String) : Bool :=
  decide (List.IsInfix pat.toList s.toList)

/-- `get_chunk_type` from `core/treesitter_chunker.rs`. -/
def get_chunk_type (node_type : String) (config : LanguageConfig) :
    Option ChunkType :=
  if config.function_types.contains node_type then
    if node_type = "method_definition" ∨ node_type = "method_declaration" then
      some ChunkType.Method
    else some ChunkType.Function
  else if config.class_types.contains node_type then
    if strHasSub node_type "struct" then some ChunkType.Struct
    else if strHasSub node_type "enum" then some ChunkType.Enum
    else if strHasSub node_type "trait" then some ChunkType.Trait
    else if strHasSub node_type "interface" then some ChunkType.Interface
    else some ChunkType.Class
  else if config.import_types.contains node_type then some ChunkType.Import
  else if config.comment_types.contains node_type then some ChunkType.Comment
  else none

/-- `extract_name`: the `name_field` child if present, else the first child
of kind `identifier` / `type_identifier`. -/
def extract_name (node : TSNode) (src : List Char) (config : LanguageConfig) :
    Option String :=
  match lookupA node.fields config.name_field with
  | some (s, e) => some (String.mk (sliceBytes src s e))
  | none =>
      (node.children.find? (fun ch =>
          ch.kind == "identifier" || ch.kind == "type_identifier")).map
        (fun ch => String.mk (sliceBytes src ch.start_byte ch.end_byte))

mutual

/-- `extract_chunks_recursive`: emit a chunk at each semantic boundary and
recurse into the children (with the node's name as the new parent). -/
def extractChunks (src : List Char) (config : LanguageConfig) :
    TSNode → Option String → List Chunk
  | .mk kind sb eb sr er fields children, parent_name =>
    match get_chunk_type kind config with
    | some ctype =>
        let name := extract_name (.mk kind sb eb sr er fields children) src config
        let c : Chunk :=
          ⟨sliceBytes src sb eb, sr + 1, er + 1, sb, eb, ctype, name, parent_name⟩
        c :: extractChunksList src config children (name.orElse (fun _ => parent_name))
    | none => extractChunksList src config children parent_name

/-- The loop over `node.children(...)`. -/
def extractChunksList (src : List Char) (config : LanguageConfig) :
    List TSNode → Option String → List Chunk
  | [], _ => []
  | n :: rest, parent_name =>
      extractChunks src config n parent_name
        ++ extractChunksList src config rest parent_name

end

/-- Byte size of a chunk, the sort key of `deduplicate_chunks`. -/
def chunkSize (c : Chunk) : Nat :=
  c.end_byte - c.start_byte

/-- Descending-size order of `deduplicate_chunks`'s `sort_by`. -/
def sizeGe (a b : Chunk) : Prop :=
  chunkSize b ≤ chunkSize a

instance : DecidableRel sizeGe :=
  fun a b => inferInstanceAs (Decidable (chunkSize b ≤ chunkSize a))

/-- Ascending `start_byte` order of `chunks.sort_by_key(|c| c.start_byte)`. -/
def startByteLe (a b : Chunk) : Prop :=
  a.start_byte ≤ b.start_byte

instance : DecidableRel startByteLe :=
  fun a b => inferInstanceAs (Decidable (a.start_byte ≤ b.start_byte))

/-- The greedy loop of `deduplicate_chunks`: keep a chunk iff its byte range
is not contained in an already-kept range. -/
def dedupGo : List Chunk → List (Nat × Nat) → List Chunk → List Chunk
  | [], _, result => result
  | c :: rest, covered, result =>
      if covered.any (fun r => decide (r.1 ≤ c.start_byte) && decide (c.end_byte ≤ r.2)) then
        dedupGo rest covered result
      else
        dedupGo rest (covered ++ [(c.start_byte, c.end_byte)]) (result ++ [c])

/-- `deduplicate_chunks`: sort by descending byte size (stable), then keep
greedily the chunks not contained in an already-kept chunk. -/
def deduplicate_chunks (chunks : List Chunk) : List Chunk :=
  if chunks.isEmpty then chunks
  else dedupGo (chunks.insertionSort sizeGe) [] []

/-- Split a byte string at every newline (`[[]]` for the empty string). -/
def splitNl : List Char → List (List Char)
  | [] => [[]]
  | c :: cs =>
      if c = '\n' then [] :: splitNl cs
      else
        match splitNl cs with
        | [] => [[c]]
        | l :: ls => (c :: l) :: ls

/-- Rust `str::lines` on the byte-list model: newline-separated pieces, with
a final newline terminating rather than separating. -/
def rustLines (content : List Char) : List (List Char) :=
  if content = [] then []
  else if content.getLast? = some '\n' then (splitNl content).dropLast
  else splitNl content

/-- The inner line loop of `split_oversized_chunks` for one oversized chunk,
including the final-remainder emission after the loop. -/
def splitLoop (c : Chunk) (max_size min_size : Nat) :
    List (List Char) → Nat → Nat → List Char → Nat → List Chunk
  | [], _i, current_start, current_content, current_line_start =>
      if min_size ≤ current_content.length then
        [⟨current_content, current_line_start, c.end_line,
          c.start_byte + current_start, c.end_byte, c.chunk_type, c.name,
          c.parent_name⟩]
      else []
  | line :: rest, i, current_start, current_content, current_line_start =>
      if max_size < current_content.length + line.length + 1 ∧ current_content ≠ [] then
        let emitted : Chunk :=
          ⟨current_content, current_line_start, c.start_line + i - 1,
            c.start_byte + current_start,
            c.start_byte + current_start + current_content.length,
            c.chunk_type, c.name, c.parent_name⟩
        emitted :: splitLoop c max_size min_size rest (i + 1)
          (current_start + current_content.length + 1) line (c.start_line + i)
      else
        splitLoop c max_size min_size rest (i + 1) current_start
          (if current_content = [] then line else current_content ++ '\n' :: line)
          current_line_start

/-- `split_oversized_chunks`: keep chunks within `[min, max]` bytes, drop
smaller ones, split larger ones along line boundaries. -/
def split_oversized_chunks (max_size min_size : Nat) (chunks : List Chunk) :
    List Chunk :=
  chunks.foldl (fun result c =>
    if c.content.length ≤ max_size then
      if min_size ≤ c.content.length then result ++ [c] else result
    else result ++ splitLoop c max_size min_size (rustLines c.content) 0 0 [] c.start_line) []

/-- `TreeSitterChunker::treesitter_chunk`, given the parse tree returned by
the external parser: extract, sort by `start_byte`, deduplicate, split. -/
def treesitter_chunk (max_size min_size : Nat) (src : List Char)
    (config : LanguageConfig) (tree_root : TSNode) : List Chunk :=
  split_oversized_chunks max_size min_size
    (deduplicate_chunks
      ((extractChunks src config tree_root none).insertionSort startByteLe))

/-- Well-formed parse tree over a source of `srcLen` bytes: node ranges are
ordered, children lie inside their parent and successive children do not
overlap — the shape tree-sitter guarantees for its concrete syntax trees. -/
inductive TSNode.Wf (srcLen : Nat) : TSNode → Prop
  | mk (kind : String) (sb eb sr er : Nat) (fields : List (String × Nat × Nat))
      (children : List TSNode)
      (hrange : sb ≤ eb) (hsrc : eb ≤ srcLen)
      (hinside : ∀ ch ∈ children, sb ≤ ch.start_byte ∧ ch.end_byte ≤ eb)
      (horder : List.Pairwise (fun a b => a.end_byte ≤ b.start_byte) children)
      (hwf : ∀ ch ∈ children, TSNode.Wf srcLen ch) :
      TSNode.Wf srcLen (.mk kind sb eb sr er fields children)

/-- Two chunks whose byte ranges intersect. -/
def chunksOverlap (a b : Chunk) : Prop :=
  max a.start_byte b.start_byte < min a.end_byte b.end_byte

/-- Nested-or-disjoint byte ranges. -/
def lamPair (a b : Chunk) : Prop :=
  (a.start_byte ≤ b.start_byte ∧ b.end_byte ≤ a.end_byte)
    ∨ (b.start_byte ≤ a.start_byte ∧ a.end_byte ≤ b.end_byte)
    ∨ a.end_byte ≤ b.start_byte ∨ b.end_byte ≤ a.start_byte

/-- Range/content agreement for a chunk of an `srcLen`-byte source. -/
def SpanOk (srcLen : Nat) (c : Chunk) : Prop :=
  c.start_byte ≤ c.end_byte ∧ c.end_byte ≤ srcLen
    ∧ c.content.length = c.end_byte - c.start_byte

/-! ## Derived notions and concrete states used by the claims -/

/-- The two maps of a `VectorIndex` are mutual inverses. -/
def MutualInv (vi : VectorIndex) : Prop :=
  ∀ (u : Nat) (c : String),
    lookupA vi.id_to_chunk u = some c ↔ lookupA vi.chunk_to_id c = some u

/-- Every usearch key in use is below `next_id` (so a fresh key is new). -/
def KeysBounded (vi : VectorIndex) : Prop :=
  ∀ u ∈ keysA vi.id_to_chunk, u < vi.next_id

/-- A `VectorIndex` mutation. -/
inductive VIOp where
  | add (chunk_id : String) (embedding : List ℝ)
  | remove (chunk_id : String)

/-- Run one mutation (a failed `add` leaves the index unchanged, as the
source bails out before mutating). -/
noncomputable def applyVIOp (vi : VectorIndex) : VIOp → VectorIndex
  | .add cid emb =>
      match vi.add cid emb with
      | .ok vi' => vi'
      | .error _ => vi
  | .remove cid => (vi.remove cid).1

/-- Run a sequence of mutations. -/
noncomputable def applyVIOps (vi : VectorIndex) (ops : List VIOp) : VectorIndex :=
  ops.foldl applyVIOp vi

/-- Along the sequence, every `add` uses a chunk id not currently present. -/
def FreshAdds : VectorIndex → List VIOp → Prop
  | _, [] => True
  | vi, op :: rest =>
      (match op with
        | .add cid _ => lookupA vi.chunk_to_id cid = none
        | .remove _ => True)
        ∧ FreshAdds (applyVIOp vi op) rest

/-- All chunk ids listed by the file records of a store. -/
def fileChunkIdsUnion (st : VectorStore) : List String :=
  ((valuesA st.files).map IndexedFile.chunks).flatten

/-- Store invariant claimed by the spec: the union of the files' chunk-id
lists is exactly the key set of the chunk table. -/
def OrphanFree (st : VectorStore) : Prop :=
  ∀ id, id ∈ fileChunkIdsUnion st ↔ id ∈ keysA st.chunks

/-- A store mutation as the indexer performs it: either a whole-file
replacement (`remove_file`, then `add_chunk` for each new chunk, then
`add_file`), or a plain `remove_file`. -/
inductive StoreOp where
  | replace (file : IndexedFile) (cs : List FileChunk)
  | remove (path : String)

/-- Run one store mutation. -/
def applyStoreOp (st : VectorStore) : StoreOp → VectorStore
  | .replace f cs => ((cs.foldl VectorStore.add_chunk (st.remove_file f.path)).add_file f)
  | .remove p => st.remove_file p

/-- Run a sequence of store mutations. -/
def applyStoreOps (st : VectorStore) (ops : List StoreOp) : VectorStore :=
  ops.foldl applyStoreOp st

/-- A well-formed mutation with respect to an ownership scheme `owner`
(in the program, a chunk id is a hash of `(file_path, start_line, end_line)`,
so the id determines its owning file): a replacement inserts chunks with
distinct ids, all owned by the written path, and the file record lists
exactly those ids. -/
def GoodOp (owner : String → String) : StoreOp → Prop
  | .replace f cs =>
      f.chunks = cs.map FileChunk.id ∧ (cs.map FileChunk.id).Nodup
        ∧ (∀ c ∈ cs, owner c.id = f.path)
  | .remove _ => True

/-- The inductive store invariant: orphan-freedom, ownership of every listed
id, consistent record paths and duplicate-free tables. -/
def StoreInv (owner : String → String) (st : VectorStore) : Prop :=
  OrphanFree st
    ∧ (∀ p f, (p, f) ∈ st.files → f.path = p ∧ ∀ id ∈ f.chunks, owner id = p)
    ∧ (keysA st.files).Nodup ∧ (keysA st.chunks).Nodup

/-- A concrete chunk with a 1-dimensional embedding. -/
noncomputable def chunkC1 : FileChunk :=
  ⟨"c1", "a.rs", "fn main".toList, 1, 2, "function", none, [1], none, none, none,
    none⟩

/-- A second concrete chunk, same embedding dimension. -/
noncomputable def chunkC2 : FileChunk :=
  ⟨"c2", "a.rs", "fn other".toList, 3, 4, "function", none, [1], none, none, none,
    none⟩

/-- A chunk with no matching query terms and embedding `[1]`. -/
noncomputable def chunkNeg : FileChunk :=
  ⟨"n1", "a.rs", [], 1, 1, "code", none, [1], none, none, none, none⟩

/-- A store holding only `chunkC1`. -/
noncomputable def storeOne : VectorStore :=
  VectorStore.default.add_chunk chunkC1

/-- A store holding only `chunkNeg`. -/
noncomputable def storeNeg : VectorStore :=
  VectorStore.default.add_chunk chunkNeg

/-- Concrete search results for the reranker claims. -/
noncomputable def resultAlpha : SearchResult :=
  ⟨⟨"a1", "a.rs", ['a', 'l', 'p', 'h', 'a'], 1, 1, "code", none, [], none, none,
    none, none⟩, 0.9, 0, 0, none⟩

noncomputable def resultBeta : SearchResult :=
  ⟨⟨"b1", "b.rs", ['q', 'u', 'e', 'r', 'y', ' ', 'b', 'e', 't', 'a'], 1, 1, "code",
    none, [], none, none, none, none⟩, 0.89, 0, 0, none⟩

/-- Joined length of newline-separated pieces (the byte count they occupy
when joined by `'\n'`): total piece length plus one separator between
consecutive pieces. -/
def joinLen (ps : List (List Char)) : Nat :=
  (ps.map List.length).sum + ps.length - 1

/-- The number of source bytes still ahead of the split loop, given the
current accumulator and the remaining lines. -/
def splitWeight (cur : List Char) (lines : List (List Char)) : Nat :=
  if cur = [] then joinLen lines
  else if lines = [] then cur.length
  else cur.length + 1 + joinLen lines

/-- A concrete file record listing exactly `chunkC1`. -/
def fileA : IndexedFile :=
  ⟨"a.rs", "hash-a", ["c1"], "2026-01-01"⟩

/-- A concrete ownership scheme for the witness (every id belongs to
`"a.rs"`). -/
def ownerA : String → String :=
  fun _ => "a.rs"

instance : IsTotal SearchResult scoreGe :=
  ⟨fun a b => le_total b.score a.score⟩

instance : IsTrans SearchResult scoreGe :=
  ⟨fun _ _ _ h1 h2 => le_trans h2 h1⟩

instance : IsTotal Chunk sizeGe :=
  ⟨fun a b => Nat.le_total (chunkSize b) (chunkSize a)⟩

instance : IsTrans Chunk sizeGe :=
  ⟨fun _ _ _ h1 h2 => Nat.le_trans h2 h1⟩

/-- The chunks one input chunk contributes to `split_oversized_chunks`:
itself when within bounds, nothing when undersized, its line-split when
oversized. -/
def stepPieces (max_size min_size : Nat) (c : Chunk) : List Chunk :=
  if c.content.length ≤ max_size then
    if min_size ≤ c.content.length then [c] else []
  else splitLoop c max_size min_size (rustLines c.content) 0 0 [] c.start_line

/-- The 180-byte source of the C1 counterexample. -/
def srcEx : List Char := List.replicate 180 'a'

/-- A `function_item` node spanning bytes `[0, 60)`. -/
def fnNode : TSNode := .mk "function_item" 0 60 0 3 [] []

/-- A `struct_item` node spanning bytes `[80, 180)`. -/
def structNode : TSNode := .mk "struct_item" 80 180 5 10 [] []

/-- A root node holding the two items. -/
def rootNode : TSNode := .mk "source_file" 0 180 0 10 [] [fnNode, structNode]

/-! ## Association-list lemmas -/

theorem lookupA_cons {κ α : Type} [DecidableEq κ] (a : κ) (b : α)
    (l : List (κ × α)) (k : κ) :
    lookupA ((a, b) :: l) k = if a = k then some b else lookupA l k := rfl

theorem lookupA_eq_none {κ α : Type} [DecidableEq κ] {l : List (κ × α)} {k : κ} :
    lookupA l k = none ↔ k ∉ keysA l := by
  induction l with
  | nil => simp [lookupA, keysA]
  | cons p l ih =>
      obtain ⟨k', v⟩ := p
      rw [lookupA_cons]
      by_cases h : k' = k
      · subst h
        rw [if_pos rfl]
        simp only [keysA, List.map_cons, List.mem_cons]
        constructor
        · intro hh; exact absurd hh (by simp)
        · intro hh; exact absurd (Or.inl trivial) hh
      · rw [if_neg h]
        simp only [keysA, List.map_cons, List.mem_cons] at ih ⊢
        rw [ih]
        constructor
        · intro hh h2; rcases h2 with h2 | h2; exact h h2.symm; exact hh h2
        · intro hh h2; exact hh (Or.inr h2)

theorem lookupA_append_left {κ α : Type} [DecidableEq κ] {l₁ : List (κ × α)}
    (l₂ : List (κ × α)) {k : κ} {v : α} (h : lookupA l₁ k = some v) :
    lookupA (l₁ ++ l₂) k = some v := by
  induction l₁ with
  | nil => simp [lookupA] at h
  | cons p l ih =>
      obtain ⟨k', v'⟩ := p
      rw [lookupA_cons] at h
      rw [List.cons_append, lookupA_cons]
      by_cases hk : k' = k
      · simpa [hk] using h
      · rw [if_neg hk] at h ⊢
        exact ih h

theorem lookupA_append_right {κ α : Type} [DecidableEq κ] {l₁ : List (κ × α)}
    (l₂ : List (κ × α)) {k : κ} (h : lookupA l₁ k = none) :
    lookupA (l₁ ++ l₂) k = lookupA l₂ k := by
  induction l₁ with
  | nil => simp
  | cons p l ih =>
      obtain ⟨k', v'⟩ := p
      rw [lookupA_cons] at h
      rw [List.cons_append, lookupA_cons]
      by_cases hk : k' = k
      · simp [hk] at h
      · rw [if_neg hk] at h ⊢
        exact ih h

theorem lookupA_map_replace_ne {κ α : Type} [DecidableEq κ] (l : List (κ × α))
    (k : κ) (v : α) {k' : κ} (h : k' ≠ k) :
    lookupA (l.map (fun p => if p.1 = k then (k, v) else p)) k' = lookupA l k' := by
  induction l with
  | nil => simp
  | cons p l ih =>
      obtain ⟨a, b⟩ := p
      rw [List.map_cons]
      by_cases ha : a = k
      · rw [if_pos ha]
        rw [lookupA_cons, lookupA_cons, if_neg (Ne.symm h), ih,
          if_neg (fun hh => h (ha ▸ hh).symm)]
      · rw [if_neg ha, lookupA_cons, lookupA_cons, ih]

theorem lookupA_map_replace_self {κ α : Type} [DecidableEq κ] {l : List (κ × α)}
    {k : κ} (v : α) (h : k ∈ keysA l) :
    lookupA (l.map (fun p => if p.1 = k then (k, v) else p)) k = some v := by
  induction l with
  | nil => simp [keysA] at h
  | cons p l ih =>
      obtain ⟨a, b⟩ := p
      rw [List.map_cons]
      by_cases ha : a = k
      · rw [if_pos ha, lookupA_cons, if_pos rfl]
      · rw [if_neg ha, lookupA_cons, if_neg ha]
        refine ih ?_
        have h' := h
        simp only [keysA, List.map_cons, List.mem_cons] at h'
        rcases h' with h' | h'
        · exact absurd h'.symm ha
        · exact h'

theorem lookupA_insertA_self {κ α : Type} [DecidableEq κ] (l : List (κ × α))
    (k : κ) (v : α) : lookupA (insertA l k v) k = some v := by
  unfold insertA
  split
  · next h => exact lookupA_map_replace_self v h
  · next h =>
      rw [lookupA_append_right _ (lookupA_eq_none.mpr h)]
      simp [lookupA]

theorem lookupA_insertA_ne {κ α : Type} [DecidableEq κ] (l : List (κ × α))
    (k : κ) (v : α) {k' : κ} (h : k' ≠ k) :
    lookupA (insertA l k v) k' = lookupA l k' := by
  unfold insertA
  split
  · exact lookupA_map_replace_ne l k v h
  · cases hl : lookupA l k' with
    | some w => rw [lookupA_append_left _ hl]
    | none =>
        rw [lookupA_append_right [(k, v)] hl, lookupA_cons, if_neg (Ne.symm h)]
        rfl

theorem keysA_insertA {κ α : Type} [DecidableEq κ] (l : List (κ × α)) (k : κ)
    (v : α) {k' : κ} : k' ∈ keysA (insertA l k v) ↔ k' ∈ keysA l ∨ k' = k := by
  unfold insertA
  split
  · next h =>
      have : keysA (l.map (fun p => if p.1 = k then (k, v) else p)) = keysA l := by
        simp only [keysA, List.map_map]
        refine List.map_congr_left (fun p _ => ?_)
        by_cases hp : p.1 = k <;> simp [hp]
      rw [this]
      constructor
      · exact Or.inl
      · rintro (hh | rfl) <;> [exact hh; exact h]
  · simp [keysA]

theorem eraseA_cons {κ α : Type} [DecidableEq κ] (a : κ) (b : α)
    (l : List (κ × α)) (k : κ) :
    eraseA ((a, b) :: l) k
      = if a = k then eraseA l k else (a, b) :: eraseA l k := by
  unfold eraseA
  rw [List.filter_cons]
  by_cases ha : a = k <;> simp [ha]

theorem lookupA_eraseA_self {κ α : Type} [DecidableEq κ] (l : List (κ × α))
    (k : κ) : lookupA (eraseA l k) k = none := by
  induction l with
  | nil => rfl
  | cons p l ih =>
      obtain ⟨a, b⟩ := p
      rw [eraseA_cons]
      by_cases ha : a = k
      · rw [if_pos ha]; exact ih
      · rw [if_neg ha, lookupA_cons, if_neg ha]; exact ih

theorem lookupA_eraseA_ne {κ α : Type} [DecidableEq κ] (l : List (κ × α))
    (k : κ) {k' : κ} (h : k' ≠ k) :
    lookupA (eraseA l k) k' = lookupA l k' := by
  induction l with
  | nil => rfl
  | cons p l ih =>
      obtain ⟨a, b⟩ := p
      rw [eraseA_cons]
      by_cases ha : a = k
      · rw [if_pos ha, lookupA_cons, if_neg (fun hh => h (ha.symm.trans hh).symm)]
        exact ih
      · rw [if_neg ha, lookupA_cons, lookupA_cons]
        by_cases ha' : a = k'
        · rw [if_pos ha', if_pos ha']
        · rw [if_neg ha', if_neg ha']; exact ih

theorem keysA_eraseA {κ α : Type} [DecidableEq κ] (l : List (κ × α)) (k : κ)
    {k' : κ} : k' ∈ keysA (eraseA l k) ↔ k' ∈ keysA l ∧ k' ≠ k := by
  induction l with
  | nil => simp [eraseA, keysA]
  | cons p l ih =>
      obtain ⟨a, b⟩ := p
      rw [eraseA_cons]
      by_cases ha : a = k
      · subst ha
        rw [if_pos rfl]
        simp only [keysA, List.map_cons, List.mem_cons]
        constructor
        · intro h; exact ⟨Or.inr (ih.mp h).1, (ih.mp h).2⟩
        · rintro ⟨h1 | h1, h2⟩
          · exact absurd h1 h2
          · exact ih.mpr ⟨h1, h2⟩
      · rw [if_neg ha]
        simp only [keysA, List.map_cons, List.mem_cons] at ih ⊢
        constructor
        · rintro (rfl | h)
          · exact ⟨Or.inl rfl, fun hh => ha hh⟩
          · exact ⟨Or.inr (ih.mp h).1, (ih.mp h).2⟩
        · rintro ⟨h1 | h1, h2⟩
          · exact Or.inl h1
          · exact Or.inr (ih.mpr ⟨h1, h2⟩)

theorem lookupA_mem {κ α : Type} [DecidableEq κ] {l : List (κ × α)} {k : κ}
    {v : α} (h : lookupA l k = some v) : (k, v) ∈ l := by
  induction l with
  | nil => simp [lookupA] at h
  | cons p l ih =>
      obtain ⟨a, b⟩ := p
      rw [lookupA_cons] at h
      by_cases ha : a = k
      · rw [if_pos ha] at h
        subst ha
        simp [Option.some.inj h]
      · rw [if_neg ha] at h
        exact List.mem_cons_of_mem _ (ih h)

theorem lookupA_of_mem_nodup {κ α : Type} [DecidableEq κ] {l : List (κ × α)}
    {k : κ} {v : α} (hnd : (keysA l).Nodup) (h : (k, v) ∈ l) :
    lookupA l k = some v := by
  induction l with
  | nil => simp at h
  | cons p l ih =>
      obtain ⟨a, b⟩ := p
      simp only [keysA, List.map_cons, List.nodup_cons] at hnd
      rw [lookupA_cons]
      rcases List.mem_cons.mp h with h | h
      · simp only [Prod.mk.injEq] at h
        obtain ⟨rfl, rfl⟩ := h
        rw [if_pos rfl]
      · have hak : a ≠ k := by
          rintro rfl
          exact hnd.1 (List.mem_map.mpr ⟨(a, v), h, rfl⟩)
        rw [if_neg hak]
        exact ih hnd.2 h

/-! ## Claim C8: the query marker -/

/-- Claim C8, counterexample: embedding a query through the standard
bidirectional (`Bert`) encoder does *not* leave the query unmodified — the
source prepends the marker unconditionally, so the code path disagrees with
the specification's conditional prefixing at this concrete input. -/
theorem embed_query_marker_cex :
    (LocalEmbedder.mk ModelType.Bert).embed_query_input "normalize vector"
      ≠ specEmbedQueryInput (LocalEmbedder.mk ModelType.Bert) "normalize vector" := by
  decide

/-- Claim C8, amended: `LocalEmbedder::embed_query` prepends the fixed marker
`"search_query: "` to every query, for every model variant (and
`HybridEmbedder::embed_query` therefore sends the marked query to both of its
sub-embedders). -/
theorem embed_query_always_prefixed (e : LocalEmbedder) (q : String) :
    e.embed_query_input q = queryMarker ++ q
      ∧ HybridEmbedder.embed_query_inputs q = (queryMarker ++ q, queryMarker ++ q) :=
  ⟨rfl, rfl⟩

/-! ## Claim C10: `clear` leaves the ANN index in place -/

/-- Claim C10: `VectorStore::clear` empties the file table, chunk table, idf
table, document count and graph but leaves `ann_index` unchanged; on a
concrete store whose index was built by `build_ann_index`, `has_ann_index`
still holds after `clear` and `ann_search` still returns a chunk id that the
cleared chunk table no longer contains. -/
theorem clear_leaves_ann_index :
    (∀ st : VectorStore,
      (st.clear).files = [] ∧ (st.clear).chunks = [] ∧ (st.clear).bm25_idf = []
        ∧ (st.clear).doc_count = 0 ∧ (st.clear).graph = KnowledgeGraph.new
        ∧ (st.clear).ann_index = st.ann_index
        ∧ (st.clear).has_ann_index = st.has_ann_index)
    ∧ (∃ st', storeOne.build_ann_index = .ok st'
        ∧ st'.clear.has_ann_index = true
        ∧ ∃ l, st'.clear.ann_search [1] 10 = some l
            ∧ ∃ p ∈ l, p.1 ∉ keysA st'.clear.chunks) := by
  constructor
  · intro st
    exact ⟨rfl, rfl, rfl, rfl, rfl, rfl, rfl⟩
  · refine ⟨{ storeOne with
        ann_index := some ⟨some [(0, [1])], [(0, "c1")], [("c1", 0)], 1, 1, 0⟩ },
      ?_, rfl, ⟨[("c1", 1 - cosDist [1] [1])], ?_, ?_⟩⟩
    · simp [storeOne, VectorStore.default, VectorStore.add_chunk, chunkC1,
        VectorStore.build_ann_index, valuesA, insertA, keysA,
        VectorIndex.new, VectorIndex.with_threshold, VectorIndex.add, lookupA]
    · simp [VectorStore.ann_search, VectorStore.clear, VectorIndex.is_indexed,
        VectorIndex.search, usearchSearch, lookupA]
    · exact ⟨("c1", 1 - cosDist [1] [1]), by simp, by simp [VectorStore.clear, keysA]⟩

/-! ## Claim C2: reranker fallback -/

/-- Claim C2, counterexample: with both remote rerankers failing, the code
returns the input truncated, which differs from the keyword-overlap re-sort
the claim describes (query `"beta"` boosts the second result above the
first). -/
theorem rerank_fallback_cex :
    Reranker.rerank none true none [resultAlpha, resultBeta] 2
      ≠ (simple_rerank ['b', 'e', 't', 'a'] [resultAlpha, resultBeta]).take 2 := by
  have hL : Reranker.rerank none true none [resultAlpha, resultBeta] 2
      = [resultAlpha, resultBeta] := by
    simp [Reranker.rerank]
  have hq : (splitWhitespace (lowerCh ['b', 'e', 't', 'a'])).dedup
      = [['b', 'e', 't', 'a']] := by decide
  have hinf1 : decide ((['b', 'e', 't', 'a'] : List Char)
      <:+: lowerCh ['a', 'l', 'p', 'h', 'a']) = false := by decide
  have hinf2 : decide ((['b', 'e', 't', 'a'] : List Char)
      <:+: lowerCh ['q', 'u', 'e', 'r', 'y', ' ', 'b', 'e', 't', 'a']) = true := by
    decide
  have hR : (simple_rerank ['b', 'e', 't', 'a'] [resultAlpha, resultBeta]).take 2
      = [{ resultBeta with score := resultBeta.score + 1 * 0.05 },
          { resultAlpha with score := resultAlpha.score + 0 * 0.05 }] := by
    simp only [simple_rerank, resultAlpha, resultBeta]
    rw [hq]
    simp only [List.map_cons, List.map_nil, List.filter_cons, List.filter_nil,
      hinf1, hinf2, List.length_cons, List.length_nil, List.insertionSort,
      List.orderedInsert]
    rw [if_neg]
    · simp [List.take, resultAlpha, resultBeta]
    · simp only [scoreGe]
      norm_num
  rw [hL, hR]
  intro h
  have hcontra := congrArg (fun l => (l.head?).map (fun r => r.chunk.content)) h
  simp [resultAlpha, resultBeta] at hcontra

/-- Claim C2, amended: when the Jina call fails and the Cohere stage is
unavailable or fails, `Reranker::rerank` returns the *unmodified* input
truncated to `top_n`; the keyword-overlap heuristic is not applied on this
path. -/
theorem rerank_both_fail_returns_input (cohere_key : Bool)
    (cohere : Option (List SearchResult)) (results : List SearchResult)
    (top_n : Nat) (h : cohere_key = false ∨ cohere = none) :
    Reranker.rerank none cohere_key cohere results top_n = results.take top_n := by
  unfold Reranker.rerank
  by_cases he : results.isEmpty
  · rw [List.isEmpty_iff] at he
    simp [he]
  · rcases h with rfl | rfl
    · simp [he]
    · cases cohere_key <;> simp [he]

/-- Witness for `rerank_both_fail_returns_input` at a concrete input. -/
theorem rerank_both_fail_witness :
    Reranker.rerank none true none [resultAlpha] 1 = [resultAlpha].take 1 :=
  rerank_both_fail_returns_input true none [resultAlpha] 1 (Or.inr rfl)


/-! ## Claim C9: the two maps of a `VectorIndex` -/

/-- Claim C9, counterexample: adding the same chunk id twice leaves
`id_to_chunk` with two keys for `"c"` while `chunk_to_id` maps `"c"` to the
newer key only — the maps are no longer mutual inverses. -/
theorem vector_index_reused_id_cex :
    ∃ vi2, ((VectorIndex.new 1).add "c" [1] >>= fun vi1 => vi1.add "c" [1])
        = Except.ok vi2 ∧ ¬ MutualInv vi2 := by
  refine ⟨⟨none, [(0, "c"), (1, "c")], [("c", 1)], 2, 1, 1000⟩, rfl, ?_⟩
  intro hinv
  have h1 := (hinv 0 "c").mp (by rfl)
  simp [lookupA] at h1

/-- Fields of a successful `VectorIndex::add`. -/
theorem VectorIndex.add_ok_fields (vi : VectorIndex) (cid : String)
    (emb : List ℝ) (hd : emb.length = vi.dimensions) :
    ∃ vi', vi.add cid emb = .ok vi'
      ∧ vi'.id_to_chunk = insertA vi.id_to_chunk vi.next_id cid
      ∧ vi'.chunk_to_id = insertA vi.chunk_to_id cid vi.next_id
      ∧ vi'.next_id = vi.next_id + 1 := by
  unfold VectorIndex.add
  rw [if_neg (by simp [hd])]
  by_cases hi : (vi.index.isNone ∧ vi.threshold ≤ vi.id_to_chunk.length)
  · rw [if_pos hi]
    exact ⟨_, rfl, rfl, rfl, rfl⟩
  · rw [if_neg hi]
    cases hix : vi.index with
    | some entries =>
        dsimp only
        rw [hix]
        exact ⟨_, rfl, rfl, rfl, rfl⟩
    | none =>
        dsimp only
        rw [hix]
        exact ⟨_, rfl, rfl, rfl, rfl⟩

/-- Inserting a fresh pair on both sides preserves mutual inversion. -/
theorem mutualInv_insert {m1 : List (Nat × String)} {m2 : List (String × Nat)}
    {key : Nat} {cid : String}
    (hinv : ∀ u c, lookupA m1 u = some c ↔ lookupA m2 c = some u)
    (hkey : lookupA m1 key = none) (hcid : lookupA m2 cid = none) :
    ∀ u c, lookupA (insertA m1 key cid) u = some c
      ↔ lookupA (insertA m2 cid key) c = some u := by
  intro u c
  by_cases hu : u = key <;> by_cases hc : c = cid
  · rw [hu, hc, lookupA_insertA_self, lookupA_insertA_self]
    simp
  · rw [hu, lookupA_insertA_self, lookupA_insertA_ne _ _ _ hc]
    constructor
    · intro hh; exact absurd (Option.some.inj hh).symm hc
    · intro hh
      have h2 := (hinv key c).mpr hh
      rw [hkey] at h2
      exact absurd h2 (by simp)
  · rw [hc, lookupA_insertA_ne _ _ _ hu, lookupA_insertA_self]
    constructor
    · intro hh
      have h2 := (hinv u cid).mp hh
      rw [hcid] at h2
      exact absurd h2 (by simp)
    · intro hh; exact absurd (Option.some.inj hh).symm hu
  · rw [lookupA_insertA_ne _ _ _ hu, lookupA_insertA_ne _ _ _ hc]
    exact hinv u c

/-- Erasing a linked pair on both sides preserves mutual inversion. -/
theorem mutualInv_erase {m1 : List (Nat × String)} {m2 : List (String × Nat)}
    {key : Nat} {cid : String}
    (hinv : ∀ u c, lookupA m1 u = some c ↔ lookupA m2 c = some u)
    (hlink : lookupA m2 cid = some key) :
    ∀ u c, lookupA (eraseA m1 key) u = some c
      ↔ lookupA (eraseA m2 cid) c = some u := by
  intro u c
  by_cases hu : u = key <;> by_cases hc : c = cid
  · rw [hu, hc, lookupA_eraseA_self, lookupA_eraseA_self]
    simp
  · rw [hu, lookupA_eraseA_self, lookupA_eraseA_ne _ _ hc]
    constructor
    · intro hh; exact absurd hh (by simp)
    · intro hh
      have h1 := (hinv key c).mpr hh
      have h2 := (hinv key cid).mpr hlink
      rw [h2] at h1
      exact absurd (Option.some.inj h1) (fun hcc => hc hcc.symm)
  · rw [hc, lookupA_eraseA_ne _ _ hu, lookupA_eraseA_self]
    constructor
    · intro hh
      have h1 := (hinv u cid).mp hh
      rw [hlink] at h1
      exact absurd (Option.some.inj h1) (fun huu => hu huu.symm)
    · intro hh; exact absurd hh (by simp)
  · rw [lookupA_eraseA_ne _ _ hu, lookupA_eraseA_ne _ _ hc]
    exact hinv u c

/-- One fresh-id mutation preserves the invariant pair. -/
theorem applyVIOp_preserves (vi : VectorIndex) (op : VIOp)
    (hinv : MutualInv vi) (hb : KeysBounded vi)
    (hf : match op with
      | .add cid _ => lookupA vi.chunk_to_id cid = none
      | .remove _ => True) :
    MutualInv (applyVIOp vi op) ∧ KeysBounded (applyVIOp vi op) := by
  cases op with
  | add cid emb =>
      by_cases hd : emb.length = vi.dimensions
      · obtain ⟨vi', hok, h1, h2, h3⟩ := VectorIndex.add_ok_fields vi cid emb hd
        have hres : applyVIOp vi (.add cid emb) = vi' := by
          simp only [applyVIOp]
          rw [hok]
        rw [hres]
        have hkey : lookupA vi.id_to_chunk vi.next_id = none := by
          rw [lookupA_eq_none]
          intro hmem
          exact absurd (hb _ hmem) (by omega)
        constructor
        · intro u c
          rw [h1, h2]
          exact mutualInv_insert hinv hkey hf u c
        · intro u hu
          rw [h1] at hu
          rw [h3]
          rcases (keysA_insertA _ _ _).mp hu with hu | rfl
          · exact Nat.lt_succ_of_lt (hb _ hu)
          · exact Nat.lt_succ_self _
      · have herr : vi.add cid emb = .error "Embedding dimension mismatch" := by
          unfold VectorIndex.add
          rw [if_pos hd]
        have hres : applyVIOp vi (.add cid emb) = vi := by
          simp only [applyVIOp]
          rw [herr]
        rw [hres]
        exact ⟨hinv, hb⟩
  | remove cid =>
      cases hl : lookupA vi.chunk_to_id cid with
      | none =>
          have hres : applyVIOp vi (.remove cid) = vi := by
            simp only [applyVIOp, VectorIndex.remove]
            rw [hl]
          rw [hres]
          exact ⟨hinv, hb⟩
      | some key =>
          have hres : applyVIOp vi (.remove cid) = { vi with
              chunk_to_id := eraseA vi.chunk_to_id cid
              id_to_chunk := eraseA vi.id_to_chunk key
              index := vi.index.map (fun entries =>
                entries.filter (fun e => e.1 ≠ key)) } := by
            simp only [applyVIOp, VectorIndex.remove]
            rw [hl]
          rw [hres]
          constructor
          · intro u c
            exact mutualInv_erase hinv hl u c
          · intro u hu
            exact hb _ ((keysA_eraseA _ _).mp hu).1

/-- Claim C9, amended: after any sequence of `add`/`remove` operations in
which every `add` uses a chunk id *not currently present*, `id_to_chunk` and
`chunk_to_id` remain mutual inverses.  (An `add` that reuses a live chunk id
breaks the invariant — see the counterexample.) -/
theorem vector_index_maps_inverse (vi : VectorIndex) (ops : List VIOp)
    (hinv : MutualInv vi) (hb : KeysBounded vi) (hf : FreshAdds vi ops) :
    MutualInv (applyVIOps vi ops) := by
  induction ops generalizing vi with
  | nil => exact hinv
  | cons op rest ih =>
      obtain ⟨hop, hrest⟩ := hf
      obtain ⟨hinv', hb'⟩ := applyVIOp_preserves vi op hinv hb hop
      exact ih (applyVIOp vi op) hinv' hb' hrest

/-- Witness for `vector_index_maps_inverse` on a concrete fresh-id
sequence. -/
theorem vector_index_maps_inverse_witness :
    FreshAdds (VectorIndex.new 1)
        [VIOp.add "a" [1], VIOp.remove "a", VIOp.add "b" [1]]
      ∧ MutualInv (applyVIOps (VectorIndex.new 1)
        [VIOp.add "a" [1], VIOp.remove "a", VIOp.add "b" [1]]) := by
  have hfresh : FreshAdds (VectorIndex.new 1)
      [VIOp.add "a" [1], VIOp.remove "a", VIOp.add "b" [1]] :=
    ⟨rfl, trivial, rfl, trivial⟩
  refine ⟨hfresh, vector_index_maps_inverse _ _ ?_ ?_ hfresh⟩
  · intro u c
    constructor <;> intro h <;> exact absurd h (by simp [VectorIndex.new, lookupA])
  · intro u hu
    exact absurd hu (by simp [VectorIndex.new, keysA])


/-! ## Claim C5: store orphan-freedom -/

theorem keysA_insertA_not_mem {κ α : Type} [DecidableEq κ]
    {l : List (κ × α)} {k : κ} (h : k ∉ keysA l) (v : α) :
    keysA (insertA l k v) = keysA l ++ [k] := by
  unfold insertA
  rw [if_neg (show k ∉ List.map Prod.fst l from h)]
  simp [keysA]

theorem keysA_eraseA_eq {κ α : Type} [DecidableEq κ] (l : List (κ × α))
    (k : κ) : keysA (eraseA l k) = (keysA l).filter (fun x => x ≠ k) := by
  induction l with
  | nil => rfl
  | cons p l ih =>
      obtain ⟨a, b⟩ := p
      rw [eraseA_cons]
      by_cases ha : a = k
      · rw [if_pos ha]
        simp only [keysA, List.map_cons, List.filter_cons]
        rw [if_neg (by simp [ha])]
        exact ih
      · rw [if_neg ha]
        simp only [keysA, List.map_cons, List.filter_cons]
        rw [if_pos (by simp [ha])]
        exact congrArg (a :: ·) ih

theorem mem_eraseA {κ α : Type} [DecidableEq κ] {l : List (κ × α)} {k : κ}
    {p : κ × α} : p ∈ eraseA l k ↔ p ∈ l ∧ p.1 ≠ k := by
  unfold eraseA
  simp

theorem keysA_foldl_eraseA {α : Type} (ids : List String)
    (l : List (String × α)) (x : String) :
    x ∈ keysA (ids.foldl (fun cs cid => eraseA cs cid) l)
      ↔ x ∈ keysA l ∧ x ∉ ids := by
  induction ids generalizing l with
  | nil => simp
  | cons i is ih =>
      rw [List.foldl_cons, ih]
      rw [keysA_eraseA (l := l) (k := i)]
      simp only [List.mem_cons]
      constructor
      · rintro ⟨h1, h2⟩
        exact ⟨h1.1, by rintro (rfl | hh); exact h1.2 rfl; exact h2 hh⟩
      · rintro ⟨h1, h2⟩
        exact ⟨⟨h1, fun hh => h2 (Or.inl hh)⟩, fun hh => h2 (Or.inr hh)⟩

theorem nodup_keysA_foldl_eraseA {α : Type} (ids : List String)
    {l : List (String × α)} (h : (keysA l).Nodup) :
    (keysA (ids.foldl (fun cs cid => eraseA cs cid) l)).Nodup := by
  induction ids generalizing l with
  | nil => exact h
  | cons i is ih =>
      rw [List.foldl_cons]
      refine ih ?_
      rw [keysA_eraseA_eq]
      exact h.filter _

theorem mem_fileChunkIdsUnion {st : VectorStore} {id : String} :
    id ∈ fileChunkIdsUnion st ↔ ∃ p f, (p, f) ∈ st.files ∧ id ∈ f.chunks := by
  unfold fileChunkIdsUnion valuesA
  rw [List.mem_flatten]
  constructor
  · rintro ⟨a, ha, hid⟩
    rw [List.mem_map] at ha
    obtain ⟨f, hf, rfl⟩ := ha
    rw [List.mem_map] at hf
    obtain ⟨⟨p, f'⟩, hp, rfl⟩ := hf
    exact ⟨p, f', hp, hid⟩
  · rintro ⟨p, f, hp, hid⟩
    exact ⟨f.chunks, List.mem_map.mpr ⟨f, List.mem_map.mpr ⟨(p, f), hp, rfl⟩, rfl⟩, hid⟩

/-- Claim C5, counterexample: a bare `add_chunk` creates an orphan — the
chunk table holds `"c1"` but no file record lists it. -/
theorem store_orphan_cex :
    ¬ OrphanFree (VectorStore.default.add_chunk chunkC1) := by
  intro h
  have h2 := (h "c1").mpr (by
    simp [VectorStore.default, VectorStore.add_chunk, insertA, keysA, chunkC1])
  rw [mem_fileChunkIdsUnion] at h2
  obtain ⟨p, f, hp, _⟩ := h2
  simp [VectorStore.default, VectorStore.add_chunk] at hp

/-- In a `StoreInv` state the path key of a removed file owns no chunk of any
other record; `remove_file` preserves the invariant. -/
theorem storeInv_remove (owner : String → String) (st : VectorStore)
    (p : String) (hinv : StoreInv owner st) :
    StoreInv owner (st.remove_file p) := by
  obtain ⟨hof, hown, hndf, hndc⟩ := hinv
  cases hf : lookupA st.files p with
  | none =>
      have hred : st.remove_file p = st := by
        unfold VectorStore.remove_file
        rw [hf]
      rw [hred]
      exact ⟨hof, hown, hndf, hndc⟩
  | some f =>
      have hred : st.remove_file p = { st with
          files := eraseA st.files p
          chunks := f.chunks.foldl (fun cs cid => eraseA cs cid) st.chunks } := by
        unfold VectorStore.remove_file
        rw [hf]
      rw [hred]
      have hmemf : (p, f) ∈ st.files := lookupA_mem hf
      have hfown := hown p f hmemf
      refine ⟨?_, ?_, ?_, ?_⟩
      · intro id
        rw [mem_fileChunkIdsUnion]
        show _ ↔ id ∈ keysA (f.chunks.foldl (fun cs cid => eraseA cs cid) st.chunks)
        rw [keysA_foldl_eraseA]
        constructor
        · rintro ⟨p', f', hp', hid⟩
          rw [show ({ st with
              files := eraseA st.files p
              chunks := f.chunks.foldl (fun cs cid => eraseA cs cid)
                st.chunks } : VectorStore).files = eraseA st.files p from rfl,
            mem_eraseA] at hp'
          obtain ⟨hp', hne⟩ := hp'
          refine ⟨(hof id).mp (mem_fileChunkIdsUnion.mpr ⟨p', f', hp', hid⟩), ?_⟩
          intro hidf
          have h1 : owner id = p := hfown.2 id hidf
          have h2 : owner id = p' := (hown p' f' hp').2 id hid
          exact hne (h2 ▸ h1)
        · rintro ⟨hk, hnf⟩
          obtain ⟨p', f', hp', hid⟩ := mem_fileChunkIdsUnion.mp ((hof id).mpr hk)
          have hne : p' ≠ p := by
            rintro rfl
            have h3 := lookupA_of_mem_nodup hndf hp'
            rw [hf] at h3
            exact hnf (Option.some.inj h3 ▸ hid)
          exact ⟨p', f', mem_eraseA.mpr ⟨hp', hne⟩, hid⟩
      · intro p' f' hp'
        have hp2 : (p', f') ∈ eraseA st.files p := hp'
        exact hown p' f' (mem_eraseA.mp hp2).1
      · show (keysA (eraseA st.files p)).Nodup
        rw [keysA_eraseA_eq]
        exact hndf.filter _
      · show (keysA (f.chunks.foldl (fun cs cid => eraseA cs cid) st.chunks)).Nodup
        exact nodup_keysA_foldl_eraseA _ hndc

/-- No record of a `StoreInv` state after `remove_file p` is keyed `p`. -/
theorem remove_file_no_path (owner : String → String) (st : VectorStore)
    (p : String) (hinv : StoreInv owner st) :
    ∀ p' f', (p', f') ∈ (st.remove_file p).files → p' ≠ p := by
  intro p' f' hp'
  cases hf : lookupA st.files p with
  | none =>
      have hred : st.remove_file p = st := by
        unfold VectorStore.remove_file
        rw [hf]
      rw [hred] at hp'
      rintro rfl
      have h3 := lookupA_of_mem_nodup hinv.2.2.1 hp'
      rw [hf] at h3
      exact Option.noConfusion h3
  | some f =>
      have hred : st.remove_file p = { st with
          files := eraseA st.files p
          chunks := f.chunks.foldl (fun cs cid => eraseA cs cid) st.chunks } := by
        unfold VectorStore.remove_file
        rw [hf]
      rw [hred] at hp'
      exact (mem_eraseA.mp hp').2

theorem foldl_add_chunk_chunks (cs : List FileChunk) (st : VectorStore) :
    (cs.foldl VectorStore.add_chunk st).chunks
      = cs.foldl (fun l c => insertA l c.id c) st.chunks
      ∧ (cs.foldl VectorStore.add_chunk st).files = st.files := by
  induction cs generalizing st with
  | nil => exact ⟨rfl, rfl⟩
  | cons c rest ih =>
      rw [List.foldl_cons, List.foldl_cons]
      exact ih (st.add_chunk c)

theorem foldl_insert_chunks (cs : List FileChunk)
    (chs : List (String × FileChunk))
    (hfresh : ∀ c ∈ cs, c.id ∉ keysA chs)
    (hnd : (cs.map FileChunk.id).Nodup) (hndchs : (keysA chs).Nodup) :
    (∀ x, x ∈ keysA (cs.foldl (fun l c => insertA l c.id c) chs)
        ↔ x ∈ keysA chs ∨ x ∈ cs.map FileChunk.id)
      ∧ (keysA (cs.foldl (fun l c => insertA l c.id c) chs)).Nodup := by
  induction cs generalizing chs with
  | nil => exact ⟨fun x => by simp, hndchs⟩
  | cons c rest ih =>
      rw [List.foldl_cons]
      have hkeys := keysA_insertA_not_mem (hfresh c (by simp)) c
      simp only [List.map_cons, List.nodup_cons] at hnd
      have hfresh' : ∀ c' ∈ rest, c'.id ∉ keysA (insertA chs c.id c) := by
        intro c' hc'
        rw [hkeys]
        simp only [List.mem_append, List.mem_singleton]
        rintro (hh | hh)
        · exact hfresh c' (by simp [hc']) hh
        · exact hnd.1 (hh ▸ List.mem_map.mpr ⟨c', hc', rfl⟩)
      have hnd' : (keysA (insertA chs c.id c)).Nodup := by
        rw [hkeys]
        simp only [List.nodup_append, List.nodup_cons]
        exact ⟨hndchs, by simp, by
          intro a ha
          simp only [List.mem_singleton]
          rintro rfl
          exact hfresh c (by simp) ha⟩
      obtain ⟨hiff, hndr⟩ := ih (insertA chs c.id c) hfresh' hnd.2 hnd'
      refine ⟨fun x => ?_, hndr⟩
      rw [hiff x, hkeys]
      simp only [List.mem_append, List.mem_singleton, List.map_cons,
        List.mem_cons]
      tauto

/-- A whole-file replacement preserves the invariant. -/
theorem storeInv_replace (owner : String → String) (st : VectorStore)
    (f : IndexedFile) (cs : List FileChunk) (hinv : StoreInv owner st)
    (hgood : GoodOp owner (.replace f cs)) :
    StoreInv owner (applyStoreOp st (.replace f cs)) := by
  obtain ⟨hlist, hndids, hcsown⟩ := hgood
  have hinv1 := storeInv_remove owner st f.path hinv
  have hnopath := remove_file_no_path owner st f.path hinv
  set st1 := st.remove_file f.path with hst1
  obtain ⟨hof1, hown1, hndf1, hndc1⟩ := hinv1
  have hfresh : ∀ c ∈ cs, c.id ∉ keysA st1.chunks := by
    intro c hc hk
    obtain ⟨p', f', hp', hid⟩ := mem_fileChunkIdsUnion.mp ((hof1 c.id).mpr hk)
    have h1 : owner c.id = p' := (hown1 p' f' hp').2 _ hid
    have h2 : owner c.id = f.path := hcsown c hc
    exact hnopath p' f' hp' (h1 ▸ h2 ▸ rfl)
  obtain ⟨hchunks2, hfiles2⟩ := foldl_add_chunk_chunks cs st1
  obtain ⟨hkiff, hknd⟩ := foldl_insert_chunks cs st1.chunks hfresh
    (hlist ▸ hndids) hndc1
  have hpathfresh : f.path ∉ keysA st1.files := by
    intro hk
    obtain ⟨⟨p', f'⟩, hp', hfst⟩ := List.mem_map.mp hk
    exact hnopath p' f' hp' hfst
  show StoreInv owner ((cs.foldl VectorStore.add_chunk st1).add_file f)
  have hfiles3 : ((cs.foldl VectorStore.add_chunk st1).add_file f).files
      = st1.files ++ [(f.path, f)] := by
    show insertA (cs.foldl VectorStore.add_chunk st1).files f.path f = _
    rw [hfiles2]
    unfold insertA
    rw [if_neg (show f.path ∉ List.map Prod.fst st1.files from hpathfresh)]
  have hchunks3 : ((cs.foldl VectorStore.add_chunk st1).add_file f).chunks
      = cs.foldl (fun l c => insertA l c.id c) st1.chunks := by
    show (cs.foldl VectorStore.add_chunk st1).chunks = _
    exact hchunks2
  refine ⟨?_, ?_, ?_, ?_⟩
  · intro id
    rw [mem_fileChunkIdsUnion]
    show _ ↔ id ∈ keysA ((cs.foldl VectorStore.add_chunk st1).add_file f).chunks
    rw [hchunks3, hkiff id]
    constructor
    · rintro ⟨p', f', hp', hid⟩
      rw [hfiles3, List.mem_append, List.mem_singleton] at hp'
      rcases hp' with hp' | hp'
      · exact Or.inl ((hof1 id).mp (mem_fileChunkIdsUnion.mpr ⟨p', f', hp', hid⟩))
      · have : f' = f := congrArg Prod.snd hp'
        exact Or.inr (hlist ▸ (this ▸ hid))
    · rintro (hk | hk)
      · obtain ⟨p', f', hp', hid⟩ := mem_fileChunkIdsUnion.mp ((hof1 id).mpr hk)
        exact ⟨p', f', by rw [hfiles3]; exact List.mem_append_left _ hp', hid⟩
      · exact ⟨f.path, f, by rw [hfiles3]; simp, hlist ▸ hk⟩
  · intro p' f' hp'
    rw [hfiles3, List.mem_append, List.mem_singleton] at hp'
    rcases hp' with hp' | hp'
    · exact hown1 p' f' hp'
    · obtain ⟨h1, h2⟩ : p' = f.path ∧ f' = f :=
        ⟨congrArg Prod.fst hp', congrArg Prod.snd hp'⟩
      subst h1; subst h2
      refine ⟨rfl, ?_⟩
      intro id hid
      rw [hlist] at hid
      obtain ⟨c, hc, rfl⟩ := List.mem_map.mp hid
      exact hcsown c hc
  · show (keysA ((cs.foldl VectorStore.add_chunk st1).add_file f).files).Nodup
    rw [hfiles3]
    simp only [keysA, List.map_append, List.map_cons, List.map_nil]
    rw [List.nodup_append]
    exact ⟨hndf1, by simp, by
      intro a ha
      simp only [List.mem_singleton]
      rintro rfl
      exact hpathfresh ha⟩
  · show (keysA ((cs.foldl VectorStore.add_chunk st1).add_file f).chunks).Nodup
    rw [hchunks3]
    exact hknd

/-- The invariant survives any good operation sequence. -/
theorem storeInv_ops (owner : String → String) (ops : List StoreOp)
    (st : VectorStore) (hinv : StoreInv owner st)
    (hgood : ∀ op ∈ ops, GoodOp owner op) :
    StoreInv owner (applyStoreOps st ops) := by
  induction ops generalizing st with
  | nil => exact hinv
  | cons op rest ih =>
      rw [applyStoreOps, List.foldl_cons]
      refine ih (applyStoreOp st op) ?_ (fun o ho => hgood o (by simp [ho]))
      cases op with
      | replace f cs =>
          exact storeInv_replace owner st f cs hinv (hgood _ (by simp))
      | remove p => exact storeInv_remove owner st p hinv

/-- Claim C5, amended: after any sequence of whole-file replacements
(`remove_file`; `add_chunk` for each chunk; `add_file` listing exactly those
ids) and removals, starting from the empty store — with chunk ids unique per
replacement and owned by the written path, as `generate_chunk_id` guarantees
in the program — the union of the file records' chunk-id lists equals the key
set of the chunk table.  (A bare `add_chunk` outside such a group violates
the invariant: see the counterexample.) -/
theorem store_orphan_free (owner : String → String) (ops : List StoreOp)
    (hgood : ∀ op ∈ ops, GoodOp owner op) :
    OrphanFree (applyStoreOps VectorStore.default ops) := by
  refine (storeInv_ops owner ops VectorStore.default ⟨?_, ?_, ?_, ?_⟩ hgood).1
  · intro id
    simp [fileChunkIdsUnion, VectorStore.default, valuesA, keysA]
  · intro p f hp
    simp [VectorStore.default] at hp
  · simp [VectorStore.default, keysA]
  · simp [VectorStore.default, keysA]

/-- Witness for `store_orphan_free` on a concrete one-file indexing run. -/
theorem store_orphan_free_witness :
    (∀ op ∈ [StoreOp.replace fileA [chunkC1]], GoodOp ownerA op)
      ∧ OrphanFree (applyStoreOps VectorStore.default
          [StoreOp.replace fileA [chunkC1]]) := by
  have hgood : ∀ op ∈ [StoreOp.replace fileA [chunkC1]], GoodOp ownerA op := by
    intro op hop
    simp only [List.mem_singleton] at hop
    subst hop
    refine ⟨rfl, by simp, ?_⟩
    intro c hc
    simp only [List.mem_singleton] at hc
    subst hc
    rfl
  exact ⟨hgood, store_orphan_free ownerA _ hgood⟩


/-! ## Claim C6: `update_bm25_stats` -/

theorem lookupA_bumpA {κ : Type} [DecidableEq κ] (l : List (κ × Nat))
    (t t' : κ) :
    lookupA (bumpA l t) t'
      = if t' = t then some ((lookupA l t).getD 0 + 1) else lookupA l t' := by
  induction l with
  | nil =>
      simp only [bumpA, lookupA_cons, lookupA]
      by_cases h : t' = t
      · rw [if_pos h.symm, if_pos h]
        rfl
      · rw [if_neg (fun hh => h hh.symm), if_neg h]
  | cons p l ih =>
      obtain ⟨k, v⟩ := p
      simp only [bumpA]
      by_cases hk : k = t
      · subst hk
        rw [if_pos rfl]
        simp only [lookupA_cons, if_pos rfl, Option.getD_some]
        by_cases ht : t' = k
        · rw [if_pos ht.symm, if_pos ht]
          simp
        · rw [if_neg (fun hh => ht hh.symm), if_neg ht,
            if_neg (fun hh => ht hh.symm)]
      · rw [if_neg hk]
        rw [lookupA_cons, ih]
        rw [show lookupA ((k, v) :: l) t = lookupA l t from by
          rw [lookupA_cons, if_neg hk]]
        rw [lookupA_cons k v l t']
        by_cases hkt : k = t'
        · have ht : ¬ t' = t := fun hh => hk (hkt.trans hh)
          rw [if_pos hkt, if_neg ht, if_pos hkt]
        · rw [if_neg hkt, if_neg hkt]

theorem lookupA_foldl_bumpA_nodup {κ : Type} [DecidableEq κ] (ts : List κ)
    (hnd : ts.Nodup) (l : List (κ × Nat)) (t : κ) :
    (lookupA (ts.foldl bumpA l) t).getD 0
      = (lookupA l t).getD 0 + (if t ∈ ts then 1 else 0) := by
  induction ts generalizing l with
  | nil => simp
  | cons s ss ih =>
      rw [List.foldl_cons, ih (List.nodup_cons.mp hnd).2, lookupA_bumpA]
      by_cases h : t = s
      · have hns : t ∉ ss := h ▸ (List.nodup_cons.mp hnd).1
        rw [if_pos h, if_pos (List.mem_cons.mpr (Or.inl h)), if_neg hns, h]
        simp
      · rw [if_neg h]
        by_cases hss : t ∈ ss
        · rw [if_pos hss, if_pos (List.mem_cons.mpr (Or.inr hss))]
        · rw [if_neg hss, if_neg (by
            rw [List.mem_cons]
            rintro (hh | hh)
            · exact h hh
            · exact hss hh)]

theorem lookupA_foldl_bumpA_none {κ : Type} [DecidableEq κ] (ts : List κ)
    (l : List (κ × Nat)) (t : κ) :
    lookupA (ts.foldl bumpA l) t = none ↔ lookupA l t = none ∧ t ∉ ts := by
  induction ts generalizing l with
  | nil => simp
  | cons s ss ih =>
      rw [List.foldl_cons, ih, lookupA_bumpA]
      by_cases h : t = s
      · rw [if_pos h]
        simp [h]
      · rw [if_neg h]
        simp only [List.mem_cons]
        constructor
        · rintro ⟨h1, h2⟩
          exact ⟨h1, by rintro (hh | hh); exact h hh; exact h2 hh⟩
        · rintro ⟨h1, h2⟩
          exact ⟨h1, fun hh => h2 (Or.inr hh)⟩

theorem tdf_getD (chunks : List FileChunk) (t : List Char)
    (acc : List (List Char × Nat)) :
    (lookupA (chunks.foldl (fun acc c => (chunkTerms c).foldl bumpA acc) acc) t).getD 0
      = (lookupA acc t).getD 0
        + chunks.countP (fun c => decide (t ∈ chunkTerms c)) := by
  induction chunks generalizing acc with
  | nil => simp
  | cons c rest ih =>
      rw [List.foldl_cons, ih, List.countP_cons,
        lookupA_foldl_bumpA_nodup (chunkTerms c)
          (by unfold chunkTerms; exact List.nodup_dedup _) acc t]
      by_cases h : t ∈ chunkTerms c
      · rw [if_pos h, if_pos (by simpa using h)]
        omega
      · rw [if_neg h, if_neg (by simpa using h)]
        omega

theorem tdf_none (chunks : List FileChunk) (t : List Char)
    (acc : List (List Char × Nat)) :
    lookupA (chunks.foldl (fun acc c => (chunkTerms c).foldl bumpA acc) acc) t
        = none
      ↔ lookupA acc t = none ∧ ∀ c ∈ chunks, t ∉ chunkTerms c := by
  induction chunks generalizing acc with
  | nil => simp
  | cons c rest ih =>
      rw [List.foldl_cons, ih, lookupA_foldl_bumpA_none]
      constructor
      · rintro ⟨⟨h1, h2⟩, h3⟩
        refine ⟨h1, ?_⟩
        intro c' hc'
        rcases List.mem_cons.mp hc' with rfl | hc'
        · exact h2
        · exact h3 c' hc'
      · rintro ⟨h1, h2⟩
        exact ⟨⟨h1, h2 c (by simp)⟩, fun c' hc' => h2 c' (by simp [hc'])⟩

theorem lookupA_mapVals {κ α β : Type} [DecidableEq κ] (f : α → β)
    (l : List (κ × α)) (k : κ) :
    lookupA (l.map (fun p => (p.1, f p.2))) k = (lookupA l k).map f := by
  induction l with
  | nil => rfl
  | cons p l ih =>
      obtain ⟨a, b⟩ := p
      rw [List.map_cons, lookupA_cons, lookupA_cons]
      by_cases ha : a = k
      · rw [if_pos ha, if_pos ha]
        rfl
      · rw [if_neg ha, if_neg ha, ih]

/-- Claim C6: `update_bm25_stats` rebuilds the idf table so that every term
with positive document frequency `df` (terms counted once per chunk, from
the whitespace tokens of the lowercased content) maps to
`ln((N - df + 0.5)/(df + 0.5) + 1)`, no other term is present, and
`doc_count` is set to the number of chunks `N`. -/
theorem update_bm25_stats_spec (st : VectorStore) (t : List Char) :
    lookupA (st.update_bm25_stats).bm25_idf t
        = (if 0 < (valuesA st.chunks).countP (fun c => decide (t ∈ chunkTerms c))
            then some (idfFormula st.chunks.length
              ((valuesA st.chunks).countP (fun c => decide (t ∈ chunkTerms c))))
            else none)
      ∧ (st.update_bm25_stats).doc_count = st.chunks.length := by
  refine ⟨?_, rfl⟩
  show lookupA ((termDocFreq (valuesA st.chunks)).map
      (fun p => (p.1, idfFormula st.chunks.length p.2))) t = _
  rw [lookupA_mapVals]
  by_cases h : 0 < (valuesA st.chunks).countP (fun c => decide (t ∈ chunkTerms c))
  · rw [if_pos h]
    have hne : lookupA (termDocFreq (valuesA st.chunks)) t ≠ none := by
      intro hnone
      obtain ⟨-, hall⟩ := (tdf_none (valuesA st.chunks) t []).mp hnone
      rw [List.countP_eq_zero.mpr (fun c hc => by simpa using hall c hc)] at h
      exact absurd h (by simp)
    cases hl : lookupA (termDocFreq (valuesA st.chunks)) t with
    | none => exact absurd hl hne
    | some v =>
        have hv : v = (valuesA st.chunks).countP
            (fun c => decide (t ∈ chunkTerms c)) := by
          have hg := tdf_getD (valuesA st.chunks) t []
          rw [show termDocFreq (valuesA st.chunks)
              = (valuesA st.chunks).foldl
                (fun acc c => (chunkTerms c).foldl bumpA acc) [] from rfl] at hl
          rw [hl] at hg
          simpa [lookupA] using hg
        rw [hv]
        rfl
  · rw [if_neg h]
    have hz : (valuesA st.chunks).countP (fun c => decide (t ∈ chunkTerms c)) = 0 := by
      omega
    have hnone : lookupA (termDocFreq (valuesA st.chunks)) t = none := by
      refine (tdf_none (valuesA st.chunks) t []).mpr ⟨rfl, ?_⟩
      intro c hc hmem
      have := List.countP_eq_zero.mp hz c hc
      simp [hmem] at this
    rw [hnone]
    rfl


/-! ## Claim C7: ANN index lifecycle -/

theorem add_ok_chunk_to_id {idx : VectorIndex} {cid : String} {emb : List ℝ}
    {idx1 : VectorIndex} (h : idx.add cid emb = .ok idx1) :
    idx1.chunk_to_id = insertA idx.chunk_to_id cid idx.next_id := by
  by_cases hd : emb.length = idx.dimensions
  · obtain ⟨vi', hok, _, h2, _⟩ := VectorIndex.add_ok_fields idx cid emb hd
    rw [hok] at h
    exact (Except.ok.inj h) ▸ h2
  · have herr : idx.add cid emb = .error "Embedding dimension mismatch" := by
      unfold VectorIndex.add
      rw [if_pos hd]
    rw [herr] at h
    exact Except.noConfusion h

theorem foldlM_add_ids (cs : List FileChunk) (idx0 idx' : VectorIndex)
    (h : cs.foldlM (fun idx c =>
        if !c.embedding.isEmpty then idx.add c.id c.embedding else pure idx) idx0
      = .ok idx') :
    ∀ cid, cid ∈ keysA idx'.chunk_to_id
      ↔ cid ∈ keysA idx0.chunk_to_id
        ∨ ∃ c ∈ cs, c.embedding ≠ [] ∧ c.id = cid := by
  induction cs generalizing idx0 with
  | nil =>
      intro cid
      have heq : idx0 = idx' := by
        simpa [pure, Except.pure] using h
      subst heq
      simp
  | cons c rest ih =>
      intro cid
      rw [List.foldlM_cons] at h
      by_cases he : c.embedding.isEmpty
      · rw [if_neg (by simp [he])] at h
        have hrest : rest.foldlM (fun idx c =>
            if !c.embedding.isEmpty then idx.add c.id c.embedding else pure idx)
            idx0 = .ok idx' := h
        rw [ih idx0 hrest cid]
        have hemp : c.embedding = [] := List.isEmpty_iff.mp he
        constructor
        · rintro (hk | hk)
          · exact Or.inl hk
          · exact Or.inr (by
              obtain ⟨c', hc', hne, hid⟩ := hk
              exact ⟨c', by simp [hc'], hne, hid⟩)
        · rintro (hk | hk)
          · exact Or.inl hk
          · obtain ⟨c', hc', hne, hid⟩ := hk
            rcases List.mem_cons.mp hc' with rfl | hc'
            · exact absurd hemp hne
            · exact Or.inr ⟨c', hc', hne, hid⟩
      · rw [if_pos (by simp [he])] at h
        cases hadd : idx0.add c.id c.embedding with
        | error e =>
            rw [hadd] at h
            exact absurd h (by simp [Bind.bind, Except.bind])
        | ok idx1 =>
            rw [hadd] at h
            have hrest : rest.foldlM (fun idx c =>
                if !c.embedding.isEmpty then idx.add c.id c.embedding
                else pure idx) idx1 = .ok idx' := h
            rw [ih idx1 hrest cid, add_ok_chunk_to_id hadd]
            have hne : c.embedding ≠ [] := by
              intro hh
              rw [hh] at he
              exact he rfl
            constructor
            · rintro (hk | hk)
              · rcases (keysA_insertA _ _ _).mp hk with hk | rfl
                · exact Or.inl hk
                · exact Or.inr ⟨c, by simp, hne, rfl⟩
              · obtain ⟨c', hc', hne', hid⟩ := hk
                exact Or.inr ⟨c', by simp [hc'], hne', hid⟩
            · rintro (hk | hk)
              · exact Or.inl ((keysA_insertA _ _ _).mpr (Or.inl hk))
              · obtain ⟨c', hc', hne', hid⟩ := hk
                rcases List.mem_cons.mp hc' with rfl | hc'
                · exact Or.inl ((keysA_insertA _ _ _).mpr (Or.inr hid.symm))
                · exact Or.inr ⟨c', hc', hne', hid⟩

/-- Claim C7, amended: `maybe_build_ann_index` delegates to
`build_ann_index` exactly when the chunk count has reached `ann_threshold`
and no index exists (and is the identity otherwise); immediately after a
successful build the index's id map contains exactly the ids of the chunks
with a non-empty embedding.  (Later mutations — `add_chunk`, `clear` — can
make a present, populated index stale: see the counterexample.) -/
theorem maybe_build_ann_index_spec :
    (∀ st : VectorStore,
      ¬(st.ann_threshold ≤ st.chunks.length ∧ st.ann_index.isNone)
        → st.maybe_build_ann_index = .ok st)
    ∧ (∀ st : VectorStore,
      (st.ann_threshold ≤ st.chunks.length ∧ st.ann_index.isNone)
        → st.maybe_build_ann_index = st.build_ann_index)
    ∧ (∀ st st' : VectorStore, st.build_ann_index = .ok st'
        → ∃ idx, st'.ann_index = some idx
            ∧ ∀ cid, cid ∈ keysA idx.chunk_to_id
                ↔ ∃ c ∈ valuesA st.chunks, c.embedding ≠ [] ∧ c.id = cid) := by
  refine ⟨?_, ?_, ?_⟩
  · intro st h
    unfold VectorStore.maybe_build_ann_index
    rw [if_neg h]
  · intro st h
    unfold VectorStore.maybe_build_ann_index
    rw [if_pos h]
  · intro st st' h
    have h2 : ((valuesA st.chunks).foldlM (fun idx c =>
          if !c.embedding.isEmpty then idx.add c.id c.embedding else pure idx)
          ((VectorIndex.new (((valuesA st.chunks).head?.map
            (fun c => c.embedding.length)).getD 768)).with_threshold 0)
        >>= fun index => pure { st with ann_index := some index })
        = Except.ok st' := h
    cases hfold : (valuesA st.chunks).foldlM (fun idx c =>
        if !c.embedding.isEmpty then idx.add c.id c.embedding else pure idx)
        ((VectorIndex.new (((valuesA st.chunks).head?.map
          (fun c => c.embedding.length)).getD 768)).with_threshold 0) with
    | error e =>
        rw [hfold] at h2
        exact absurd h2 (by simp [Bind.bind, Except.bind])
    | ok index =>
        rw [hfold] at h2
        have hst' : st' = { st with ann_index := some index } := by
          have h3 : Except.ok (ε := String) { st with ann_index := some index }
              = Except.ok st' := h2
          exact (Except.ok.inj h3).symm
        refine ⟨index, by rw [hst'], ?_⟩
        intro cid
        rw [foldlM_add_ids _ _ _ hfold cid]
        simp [VectorIndex.new, VectorIndex.with_threshold, keysA]

/-- The concrete one-chunk build used by several witnesses. -/
theorem storeOne_build_eq :
    storeOne.build_ann_index = Except.ok { storeOne with
      ann_index := some ⟨some [(0, [1])], [(0, "c1")], [("c1", 0)], 1, 1, 0⟩ } := by
  simp [storeOne, VectorStore.default, VectorStore.add_chunk, chunkC1,
    VectorStore.build_ann_index, valuesA, insertA, keysA,
    VectorIndex.new, VectorIndex.with_threshold, VectorIndex.add, lookupA]

/-- Claim C7, counterexample: after a successful build, a further
`add_chunk` leaves the index present and populated but no longer equal to
the set of ids of chunks with non-empty embeddings. -/
theorem ann_index_stale_cex :
    ∃ st', storeOne.build_ann_index = .ok st'
      ∧ ∃ idx, (st'.add_chunk chunkC2).ann_index = some idx
          ∧ (st'.add_chunk chunkC2).has_ann_index = true
          ∧ chunkC2.id ∈ keysA (st'.add_chunk chunkC2).chunks
          ∧ chunkC2.embedding ≠ []
          ∧ chunkC2.id ∉ keysA idx.chunk_to_id := by
  refine ⟨_, storeOne_build_eq, ⟨some [(0, [1])], [(0, "c1")], [("c1", 0)], 1, 1, 0⟩,
    rfl, rfl, ?_, by simp [chunkC2], ?_⟩
  · simp [VectorStore.add_chunk, storeOne, VectorStore.default, chunkC1, chunkC2,
      insertA, keysA]
  · simp [chunkC2, keysA]

/-- Witness for `maybe_build_ann_index_spec`: the empty store is below
threshold (no build), and the one-chunk forced build contains exactly
`"c1"`. -/
theorem maybe_build_ann_index_witness :
    VectorStore.default.maybe_build_ann_index = .ok VectorStore.default
      ∧ ∃ idx, ({ storeOne with
            ann_index := some ⟨some [(0, [1])], [(0, "c1")], [("c1", 0)], 1, 1, 0⟩ }
            : VectorStore).ann_index = some idx
          ∧ ∀ cid, cid ∈ keysA idx.chunk_to_id
              ↔ ∃ c ∈ valuesA storeOne.chunks, c.embedding ≠ [] ∧ c.id = cid :=
  ⟨maybe_build_ann_index_spec.1 VectorStore.default
      (by simp [VectorStore.default]),
    maybe_build_ann_index_spec.2.2 storeOne _ storeOne_build_eq⟩


/-! ## Claims C3 and C4: scoring -/

theorem normalize_bm25_mono {s t : ℝ} (h : s ≤ t) :
    normalize_bm25 s ≤ normalize_bm25 t := by
  unfold normalize_bm25
  have he : Real.exp (-t * 0.1) ≤ Real.exp (-s * 0.1) :=
    Real.exp_le_exp.mpr (by linarith)
  have hp : (0 : ℝ) < 1 + Real.exp (-t * 0.1) := by
    have := Real.exp_pos (-t * 0.1)
    linarith
  exact one_div_le_one_div_of_le hp (by linarith)

theorem normalize_bm25_bounds (s : ℝ) :
    0 ≤ normalize_bm25 s ∧ normalize_bm25 s ≤ 1 := by
  unfold normalize_bm25
  have he := Real.exp_pos (-s * 0.1)
  constructor
  · positivity
  · rw [div_le_one (by linarith)]
    linarith

theorem map_mul_self_sum_eq (a : List ℝ) :
    (a.map (fun x => x * x)).sum
      = ∑ i in Finset.range a.length, a.getD i 0 * a.getD i 0 := by
  induction a with
  | nil => simp
  | cons x a ih =>
      rw [List.map_cons, List.sum_cons, List.length_cons, Finset.sum_range_succ',
        ih]
      simp [add_comm]

theorem zipWith_mul_sum_eq (a b : List ℝ) (h : a.length = b.length) :
    (List.zipWith (fun x y => x * y) a b).sum
      = ∑ i in Finset.range a.length, a.getD i 0 * b.getD i 0 := by
  induction a generalizing b with
  | nil => simp
  | cons x a ih =>
      cases b with
      | nil => simp at h
      | cons y b =>
          rw [List.zipWith_cons_cons, List.sum_cons, List.length_cons,
            Finset.sum_range_succ', ih b (by simpa using h)]
          simp [add_comm]

theorem sumSq_nonneg (a : List ℝ) : 0 ≤ sumSq a := by
  unfold sumSq
  refine List.sum_nonneg ?_
  intro x hx
  obtain ⟨y, -, rfl⟩ := List.mem_map.mp hx
  exact mul_self_nonneg y

theorem dotList_sq_le (a b : List ℝ) (h : a.length = b.length) :
    (dotList a b) ^ 2 ≤ sumSq a * sumSq b := by
  unfold dotList sumSq
  rw [zipWith_mul_sum_eq a b h, map_mul_self_sum_eq a, map_mul_self_sum_eq b,
    show b.length = a.length from h.symm]
  have hcs := Finset.sum_mul_sq_le_sq_mul_sq (Finset.range a.length)
    (fun i => a.getD i 0) (fun i => b.getD i 0)
  simpa [pow_two] using hcs

theorem cosine_similarity_bounds (a b : List ℝ) :
    -1 ≤ cosine_similarity a b ∧ cosine_similarity a b ≤ 1 := by
  unfold cosine_similarity
  split
  · norm_num
  · next hcond =>
      push_neg at hcond
      dsimp only
      split
      · norm_num
      · next hnz =>
          push_neg at hnz
          obtain ⟨hna, hnb⟩ := hnz
          have h0a : (0 : ℝ) ≤ Real.sqrt (sumSq a) := Real.sqrt_nonneg _
          have h0b : (0 : ℝ) ≤ Real.sqrt (sumSq b) := Real.sqrt_nonneg _
          have hpa : (0 : ℝ) < Real.sqrt (sumSq a) := lt_of_le_of_ne h0a (Ne.symm hna)
          have hpb : (0 : ℝ) < Real.sqrt (sumSq b) := lt_of_le_of_ne h0b (Ne.symm hnb)
          have hP : (0 : ℝ) < Real.sqrt (sumSq a) * Real.sqrt (sumSq b) :=
            mul_pos hpa hpb
          have hsq : (dotList a b) ^ 2
              ≤ (Real.sqrt (sumSq a) * Real.sqrt (sumSq b)) ^ 2 := by
            rw [mul_pow, Real.sq_sqrt (sumSq_nonneg a), Real.sq_sqrt (sumSq_nonneg b)]
            exact dotList_sq_le a b hcond.1
          constructor
          · rw [le_div_iff₀ hP]
            nlinarith [hsq, hP]
          · rw [div_le_one hP]
            nlinarith [hsq, hP]

/-- Every search result is the scoring of some candidate chunk. -/
theorem mem_search {hs : HybridSearcher} {st : VectorStore} {qe : List ℝ}
    {qt : List Char} {limit : Nat} {ft : Option (List String)}
    {colbert : Bool} {qte : Option (List (List ℝ))} {r : SearchResult}
    (h : r ∈ hs.search st qe qt limit ft colbert qte) :
    ∃ chunk, r = hs.scoreChunk qe (splitWhitespace (lowerCh qt)) st.bm25_idf
      (avgDocLen st) colbert qte chunk := by
  simp only [HybridSearcher.search] at h
  have h1 := List.take_subset _ _ h
  have h2 := (List.perm_insertionSort scoreGe _).mem_iff.mp h1
  obtain ⟨c, -, rfl⟩ := List.mem_map.mp h2
  exact ⟨c, rfl⟩

/-- When late interaction is off, the score of `scoreChunk` is the plain
two-way blend. -/
theorem scoreChunk_no_colbert (hs : HybridSearcher) (qe : List ℝ)
    (terms : List (List Char)) (idf : List (List Char × ℝ)) (avg : ℝ)
    (qte : Option (List (List ℝ))) (chunk : FileChunk) :
    (hs.scoreChunk qe terms idf avg false qte chunk).score
      = hs.vector_weight * cosine_similarity qe chunk.embedding
        + hs.bm25_weight * normalize_bm25 (hs.compute_bm25 chunk.content terms idf avg) := by
  simp [HybridSearcher.scoreChunk]


theorem cosine_neg_one : cosine_similarity [-1] [1] = -1 := by
  have hs1 : sumSq [-1] = 1 := by
    norm_num [sumSq, List.map_cons, List.map_nil, List.sum_cons, List.sum_nil]
  have hs2 : sumSq [1] = 1 := by
    norm_num [sumSq, List.map_cons, List.map_nil, List.sum_cons, List.sum_nil]
  have hd : dotList [-1] [1] = -1 := by
    norm_num [dotList, List.zipWith_cons_cons, List.sum_cons]
  unfold cosine_similarity
  rw [if_neg (by simp)]
  dsimp only
  rw [hs1, hs2, Real.sqrt_one, if_neg (by norm_num), hd]
  norm_num

theorem normalize_bm25_zero : normalize_bm25 0 = 1 / 2 := by
  unfold normalize_bm25
  norm_num [Real.exp_zero]

theorem avgDocLen_storeNeg : avgDocLen storeNeg = 500 := by
  simp [avgDocLen, storeNeg, VectorStore.default, VectorStore.add_chunk]

theorem storeNeg_search_eq :
    HybridSearcher.mkDefault.search storeNeg [-1] [] 1 none false none
      = [HybridSearcher.mkDefault.scoreChunk [-1] [] [] (avgDocLen storeNeg)
          false none chunkNeg] := by
  simp only [HybridSearcher.search]
  rw [show splitWhitespace (lowerCh []) = [] from rfl]
  rw [show storeNeg.ann_search [-1] (1 * 3) = none from rfl]
  rw [show valuesA storeNeg.chunks = [chunkNeg] from by
    simp [storeNeg, VectorStore.default, VectorStore.add_chunk, insertA, valuesA]]
  rw [show storeNeg.bm25_idf = [] from rfl]
  simp only [List.filter_cons, List.filter_nil,
    show fileTypeOk none chunkNeg = true from rfl, if_pos trivial,
    List.map_cons, List.map_nil, List.insertionSort, List.orderedInsert,
    List.take]

/-- Claim C4, counterexample: with the default weights (which sum to 1) and
late interaction off, a search can produce a combined score below 0 — a
chunk whose embedding points opposite to the query scores
`0.7·(−1) + 0.3·σ(0) = −0.55`. -/
theorem search_score_negative_cex :
    HybridSearcher.mkDefault.vector_weight + HybridSearcher.mkDefault.bm25_weight = 1
      ∧ ∃ r ∈ HybridSearcher.mkDefault.search storeNeg [-1] [] 1 none false none,
        r.score < 0 := by
  refine ⟨by norm_num [HybridSearcher.mkDefault], ?_⟩
  refine ⟨HybridSearcher.mkDefault.scoreChunk [-1] [] [] (avgDocLen storeNeg)
    false none chunkNeg, by rw [storeNeg_search_eq]; exact List.mem_singleton.mpr rfl, ?_⟩
  rw [scoreChunk_no_colbert]
  have h1 : cosine_similarity [-1] chunkNeg.embedding = -1 := cosine_neg_one
  have h2 : HybridSearcher.mkDefault.compute_bm25 chunkNeg.content [] []
      (avgDocLen storeNeg) = 0 := by
    simp [HybridSearcher.compute_bm25]
  rw [h1, h2, normalize_bm25_zero]
  norm_num [HybridSearcher.mkDefault]

/-- Claim C4, amended: the BM25 sigmoid is monotone non-decreasing, cosine
similarity always lies in `[-1, 1]`, and — since cosine may be negative —
with late interaction off and non-negative weights summing to 1 every
combined score lies in `[-vector_weight, 1]` (not `[0, 1]`). -/
theorem bm25_cosine_score_bounds :
    (∀ s t : ℝ, s ≤ t → normalize_bm25 s ≤ normalize_bm25 t)
    ∧ (∀ a b : List ℝ, -1 ≤ cosine_similarity a b ∧ cosine_similarity a b ≤ 1)
    ∧ (∀ (hs : HybridSearcher) (st : VectorStore) (qe : List ℝ) (qt : List Char)
        (limit : Nat) (ft : Option (List String)) (qte : Option (List (List ℝ)))
        (r : SearchResult),
        hs.vector_weight + hs.bm25_weight = 1 → 0 ≤ hs.vector_weight
        → 0 ≤ hs.bm25_weight
        → r ∈ hs.search st qe qt limit ft false qte
        → -hs.vector_weight ≤ r.score ∧ r.score ≤ 1) := by
  refine ⟨fun s t h => normalize_bm25_mono h, cosine_similarity_bounds, ?_⟩
  intro hs st qe qt limit ft qte r hsum hwv hwl hmem
  obtain ⟨chunk, rfl⟩ := mem_search hmem
  rw [scoreChunk_no_colbert]
  obtain ⟨hc1, hc2⟩ := cosine_similarity_bounds qe chunk.embedding
  obtain ⟨hb1, hb2⟩ := normalize_bm25_bounds
    (hs.compute_bm25 chunk.content (splitWhitespace (lowerCh qt)) st.bm25_idf
      (avgDocLen st))
  constructor
  · nlinarith [mul_nonneg hwv (by linarith :
      (0:ℝ) ≤ cosine_similarity qe chunk.embedding + 1),
      mul_nonneg hwl hb1]
  · nlinarith [mul_nonneg hwv (by linarith :
      (0:ℝ) ≤ 1 - cosine_similarity qe chunk.embedding),
      mul_nonneg hwl (by linarith : (0:ℝ) ≤ 1 - normalize_bm25
        (hs.compute_bm25 chunk.content (splitWhitespace (lowerCh qt))
          st.bm25_idf (avgDocLen st)))]

/-- Witness for the score-bounds part of `bm25_cosine_score_bounds` at the
concrete one-chunk store. -/
theorem bm25_cosine_score_bounds_witness :
    ∃ r ∈ HybridSearcher.mkDefault.search storeNeg [-1] [] 1 none false none,
      -HybridSearcher.mkDefault.vector_weight ≤ r.score ∧ r.score ≤ 1 := by
  refine ⟨HybridSearcher.mkDefault.scoreChunk [-1] [] [] (avgDocLen storeNeg)
    false none chunkNeg,
    by rw [storeNeg_search_eq]; exact List.mem_singleton.mpr rfl, ?_⟩
  exact bm25_cosine_score_bounds.2.2 HybridSearcher.mkDefault storeNeg [-1] []
    1 none none _ (by norm_num [HybridSearcher.mkDefault])
    (by norm_num [HybridSearcher.mkDefault])
    (by norm_num [HybridSearcher.mkDefault])
    (by rw [storeNeg_search_eq]; exact List.mem_singleton.mpr rfl)

/-- Claim C3: every result of `HybridSearcher::search` carries the claimed
combined score (two-way blend without late interaction, three-way blend
with it), and the result list is sorted by descending score and truncated
to the requested limit. -/
theorem search_score_spec (hs : HybridSearcher) (st : VectorStore)
    (qe : List ℝ) (qt : List Char) (limit : Nat) (ft : Option (List String))
    (colbert : Bool) (qte : Option (List (List ℝ))) :
    (∀ r ∈ hs.search st qe qt limit ft colbert qte,
      ((colbert = false ∨ qte = none ∨ r.chunk.token_embeddings = none)
        → r.score = hs.vector_weight * cosine_similarity qe r.chunk.embedding
          + hs.bm25_weight * normalize_bm25
            (hs.compute_bm25 r.chunk.content (splitWhitespace (lowerCh qt))
              st.bm25_idf (avgDocLen st)))
      ∧ (∀ qts dts, colbert = true → qte = some qts
          → r.chunk.token_embeddings = some dts
          → r.score = 0.5 * hs.vector_weight * cosine_similarity qe r.chunk.embedding
            + 0.5 * hs.vector_weight * colbert_max_sim qts dts
            + hs.bm25_weight * normalize_bm25
              (hs.compute_bm25 r.chunk.content (splitWhitespace (lowerCh qt))
                st.bm25_idf (avgDocLen st))))
    ∧ List.Sorted scoreGe (hs.search st qe qt limit ft colbert qte)
    ∧ (hs.search st qe qt limit ft colbert qte).length ≤ limit := by
  refine ⟨?_, ?_, ?_⟩
  · intro r hmem
    obtain ⟨chunk, rfl⟩ := mem_search hmem
    constructor
    · intro hcond
      have hnone : (if colbert then qte.bind (fun q_tokens =>
          chunk.token_embeddings.map (fun d_tokens =>
            colbert_max_sim q_tokens d_tokens)) else none) = none := by
        rcases hcond with rfl | rfl | hte
        · rfl
        · cases colbert <;> simp
        · simp only [HybridSearcher.scoreChunk] at hte
          cases colbert <;> simp [hte]
      simp only [HybridSearcher.scoreChunk, hnone]
    · intro qts dts hcol hqte hte
      subst hcol
      subst hqte
      simp only [HybridSearcher.scoreChunk] at hte ⊢
      simp [hte]
      ring
  · exact (List.sorted_insertionSort scoreGe _).sublist (List.take_sublist _ _)
  · exact List.length_take_le _ _

/-- Witness for `search_score_spec` at the concrete one-chunk store. -/
theorem search_score_spec_witness :
    ∃ r ∈ HybridSearcher.mkDefault.search storeNeg [-1] [] 1 none false none,
      r.score = HybridSearcher.mkDefault.vector_weight
          * cosine_similarity [-1] r.chunk.embedding
        + HybridSearcher.mkDefault.bm25_weight * normalize_bm25
          (HybridSearcher.mkDefault.compute_bm25 r.chunk.content
            (splitWhitespace (lowerCh [])) storeNeg.bm25_idf (avgDocLen storeNeg)) := by
  refine ⟨HybridSearcher.mkDefault.scoreChunk [-1] [] [] (avgDocLen storeNeg)
    false none chunkNeg,
    by rw [storeNeg_search_eq]; exact List.mem_singleton.mpr rfl, ?_⟩
  exact ((search_score_spec HybridSearcher.mkDefault storeNeg [-1] [] 1 none
    false none).1 _
    (by rw [storeNeg_search_eq]; exact List.mem_singleton.mpr rfl)).1
    (Or.inl rfl)

/-! ## C1: chunker output order and overlap -/

/-- **C1, counterexample.**  On a well-formed two-item parse tree (a
60-byte function followed by a 100-byte struct) the pipeline returns the
struct first: `deduplicate_chunks` re-sorts by descending byte size and
never restores the `start_byte` order, so the output start bytes are
`[80, 0]` — not ascending. -/
theorem treesitter_chunk_unsorted_cex :
    (treesitter_chunk 1500 50 srcEx rustConfig rootNode).map Chunk.start_byte
        = [80, 0]
      ∧ ¬ List.Pairwise startByteLe
          (treesitter_chunk 1500 50 srcEx rustConfig rootNode) := by
  have hmap : (treesitter_chunk 1500 50 srcEx rustConfig rootNode).map
      Chunk.start_byte = [80, 0] := by decide
  refine ⟨hmap, fun hp => ?_⟩
  have h2 : List.Pairwise (fun a b : Nat => a ≤ b)
      ((treesitter_chunk 1500 50 srcEx rustConfig rootNode).map
        Chunk.start_byte) :=
    List.pairwise_map.mpr hp
  rw [hmap] at h2
  have h3 := (List.pairwise_cons.1 h2).1 0 (List.mem_singleton.mpr rfl)
  omega

/-- Length of a byte slice within bounds. -/
theorem sliceBytes_length {src : List Char} {s e : Nat} (h1 : s ≤ e)
    (h2 : e ≤ src.length) : (sliceBytes src s e).length = e - s := by
  simp only [sliceBytes, List.length_drop, List.length_take]
  omega

/-- Membership in the child loop is membership in some child's extraction. -/
theorem mem_extractChunksList {src : List Char} {cfg : LanguageConfig}
    {l : List TSNode} {p : Option String} {c : Chunk} :
    c ∈ extractChunksList src cfg l p
      ↔ ∃ n ∈ l, c ∈ extractChunks src cfg n p := by
  induction l with
  | nil => simp [extractChunksList]
  | cons n rest ih => simp [extractChunksList, ih]

/-- Every chunk extracted from a well-formed node lies inside the node's
byte range and its content length matches its range. -/
theorem extract_span {src : List Char} {cfg : LanguageConfig} {t : TSNode}
    (hwf : TSNode.Wf src.length t) :
    ∀ p c, c ∈ extractChunks src cfg t p →
      t.start_byte ≤ c.start_byte ∧ c.end_byte ≤ t.end_byte
        ∧ SpanOk src.length c := by
  induction hwf with
  | mk kind sb eb sr er fields children hrange hsrc hinside horder hwfc ih =>
    intro p c hc
    simp only [extractChunks] at hc
    have hsub : c ∈ extractChunksList src cfg children p →
        sb ≤ c.start_byte ∧ c.end_byte ≤ eb ∧ SpanOk src.length c := by
      intro hmem
      obtain ⟨n, hn, hcn⟩ := mem_extractChunksList.1 hmem
      obtain ⟨ha, hb, hs⟩ := ih n hn p c hcn
      exact ⟨le_trans (hinside n hn).1 ha, le_trans hb (hinside n hn).2, hs⟩
    split at hc
    · rcases List.mem_cons.1 hc with rfl | hmem
      · exact ⟨le_refl _, le_refl _, hrange, hsrc, sliceBytes_length hrange hsrc⟩
      · obtain ⟨n, hn, hcn⟩ := mem_extractChunksList.1 hmem
        obtain ⟨ha, hb, hs⟩ := ih n hn _ c hcn
        exact ⟨le_trans (hinside n hn).1 ha, le_trans hb (hinside n hn).2, hs⟩
    · exact hsub hc

/-- Chunks extracted from an ordered list of well-formed, pairwise
byte-disjoint nodes are pairwise nested-or-disjoint, provided each single
node's extraction already is. -/
theorem extractList_lam {src : List Char} {cfg : LanguageConfig}
    {l : List TSNode}
    (hwfl : ∀ n ∈ l, TSNode.Wf src.length n)
    (horder : List.Pairwise (fun a b => a.end_byte ≤ b.start_byte) l)
    (hnode : ∀ n ∈ l, ∀ p a b, a ∈ extractChunks src cfg n p →
        b ∈ extractChunks src cfg n p → lamPair a b) :
    ∀ p a b, a ∈ extractChunksList src cfg l p →
      b ∈ extractChunksList src cfg l p → lamPair a b := by
  induction l with
  | nil => intro p a b ha _; simp [extractChunksList] at ha
  | cons n rest ih =>
    intro p a b ha hb
    simp only [extractChunksList, List.mem_append] at ha hb
    rcases ha with ha | ha <;> rcases hb with hb | hb
    · exact hnode n (List.mem_cons_self n rest) p a b ha hb
    · obtain ⟨m, hm, hbm⟩ := mem_extractChunksList.1 hb
      have h1 := extract_span (hwfl n (List.mem_cons_self n rest)) p a ha
      have h2 := extract_span (hwfl m (List.mem_cons_of_mem n hm)) p b hbm
      have hsep := (List.pairwise_cons.1 horder).1 m hm
      exact Or.inr (Or.inr (Or.inl (le_trans h1.2.1 (le_trans hsep h2.1))))
    · obtain ⟨m, hm, ham⟩ := mem_extractChunksList.1 ha
      have h1 := extract_span (hwfl m (List.mem_cons_of_mem n hm)) p a ham
      have h2 := extract_span (hwfl n (List.mem_cons_self n rest)) p b hb
      have hsep := (List.pairwise_cons.1 horder).1 m hm
      exact Or.inr (Or.inr (Or.inr (le_trans h2.2.1 (le_trans hsep h1.1))))
    · exact ih (fun m hm => hwfl m (List.mem_cons_of_mem n hm))
        (List.pairwise_cons.1 horder).2
        (fun m hm => hnode m (List.mem_cons_of_mem n hm)) p a b ha hb

/-- Any two chunks extracted from one well-formed node are
nested-or-disjoint. -/
theorem extract_lam {src : List Char} {cfg : LanguageConfig} {t : TSNode}
    (hwf : TSNode.Wf src.length t) :
    ∀ p a b, a ∈ extractChunks src cfg t p →
      b ∈ extractChunks src cfg t p → lamPair a b := by
  induction hwf with
  | mk kind sb eb sr er fields children hrange hsrc hinside horder hwfc ih =>
    intro p a b ha hb
    simp only [extractChunks] at ha hb
    have hin : ∀ q (d : Chunk), d ∈ extractChunksList src cfg children q →
        sb ≤ d.start_byte ∧ d.end_byte ≤ eb := by
      intro q d hd
      obtain ⟨m, hm, hdm⟩ := mem_extractChunksList.1 hd
      have h2 := extract_span (hwfc m hm) q d hdm
      exact ⟨le_trans (hinside m hm).1 h2.1, le_trans h2.2.1 (hinside m hm).2⟩
    have hlist := extractList_lam hwfc horder ih
    cases hct : get_chunk_type kind cfg with
    | some ctype =>
        rw [hct] at ha hb
        simp only [List.mem_cons] at ha hb
        rcases ha with rfl | ha <;> rcases hb with rfl | hb
        · exact Or.inl ⟨le_refl _, le_refl _⟩
        · exact Or.inl (hin _ b hb)
        · exact Or.inr (Or.inl (hin _ a ha))
        · exact hlist _ a b ha hb
    | none =>
        rw [hct] at ha hb
        exact hlist p a b ha hb

/-- Everything `dedupGo` returns came from the kept list or the input. -/
theorem dedupGo_subset :
    ∀ (l : List Chunk) (cov : List (Nat × Nat)) (res : List Chunk),
      ∀ c ∈ dedupGo l cov res, c ∈ res ∨ c ∈ l := by
  intro l
  induction l with
  | nil => intro cov res c hc; exact Or.inl hc
  | cons d rest ih =>
    intro cov res c hc
    simp only [dedupGo] at hc
    split at hc
    · rcases ih _ _ c hc with h | h
      · exact Or.inl h
      · exact Or.inr (List.mem_cons_of_mem d h)
    · rcases ih _ _ c hc with h | h
      · rcases List.mem_append.1 h with h | h
        · exact Or.inl h
        · exact Or.inr (List.mem_cons.2 (Or.inl (List.mem_singleton.1 h)))
      · exact Or.inr (List.mem_cons_of_mem d h)

/-- The greedy containment filter keeps only pairwise non-overlapping
chunks, when fed a descending-size ordering of a nested-or-disjoint
family and when the covered ranges are exactly those of the kept list. -/
theorem dedupGo_pairwise (P : Chunk → Prop)
    (hlam : ∀ a b, P a → P b → lamPair a b)
    (hspan : ∀ c, P c → c.start_byte ≤ c.end_byte) :
    ∀ (l res : List Chunk),
      (∀ c ∈ l, P c) → (∀ c ∈ res, P c) →
      List.Pairwise sizeGe l →
      (∀ a ∈ res, ∀ b ∈ l, sizeGe a b) →
      List.Pairwise (fun a b => ¬ chunksOverlap a b) res →
      List.Pairwise (fun a b => ¬ chunksOverlap a b)
        (dedupGo l (res.map (fun d => (d.start_byte, d.end_byte))) res) := by
  intro l
  induction l with
  | nil => intro res _ _ _ _ hres; simpa [dedupGo] using hres
  | cons c rest ih =>
    intro res hPl hPres hsort hsize hres
    simp only [dedupGo]
    by_cases hcov : (res.map (fun d => (d.start_byte, d.end_byte))).any
        (fun r => decide (r.1 ≤ c.start_byte) && decide (c.end_byte ≤ r.2))
          = true
    · rw [if_pos hcov]
      exact ih res (fun d hd => hPl d (List.mem_cons_of_mem c hd)) hPres
        (List.pairwise_cons.1 hsort).2
        (fun a ha b hb => hsize a ha b (List.mem_cons_of_mem c hb)) hres
    · rw [if_neg hcov]
      have hmapeq : (res.map fun d => (d.start_byte, d.end_byte))
            ++ [(c.start_byte, c.end_byte)]
          = (res ++ [c]).map fun d => (d.start_byte, d.end_byte) := by
        simp
      rw [hmapeq]
      apply ih (res ++ [c])
      · exact fun d hd => hPl d (List.mem_cons_of_mem c hd)
      · intro d hd
        rcases List.mem_append.1 hd with h | h
        · exact hPres d h
        · rw [List.mem_singleton.1 h]
          exact hPl c (List.mem_cons_self c rest)
      · exact (List.pairwise_cons.1 hsort).2
      · intro a ha b hb
        rcases List.mem_append.1 ha with h | h
        · exact hsize a h b (List.mem_cons_of_mem c hb)
        · rw [List.mem_singleton.1 h]
          exact (List.pairwise_cons.1 hsort).1 b hb
      · rw [List.pairwise_append]
        refine ⟨hres, List.pairwise_singleton _ _, ?_⟩
        intro a ha b hb
        rw [List.mem_singleton.1 hb]
        have hPa := hPres a ha
        have hPc := hPl c (List.mem_cons_self c rest)
        have hnc : ¬ (a.start_byte ≤ c.start_byte
            ∧ c.end_byte ≤ a.end_byte) := by
          intro hcon
          apply hcov
          rw [List.any_eq_true]
          refine ⟨(a.start_byte, a.end_byte), List.mem_map_of_mem _ ha, ?_⟩
          simp [hcon.1, hcon.2]
        have h1 := hspan a hPa
        have h2 := hspan c hPc
        rcases hlam a c hPa hPc with h | h | h | h
        · exact absurd h hnc
        · have hs := hsize a ha c (List.mem_cons_self c rest)
          simp only [sizeGe, chunkSize] at hs
          exfalso
          apply hnc
          constructor <;> omega
        · intro hov
          simp only [chunksOverlap] at hov
          omega
        · intro hov
          simp only [chunksOverlap] at hov
          omega

/-- `deduplicate_chunks` returns a sublist of its input (as a set). -/
theorem deduplicate_subset (l : List Chunk) :
    ∀ c ∈ deduplicate_chunks l, c ∈ l := by
  intro c hc
  unfold deduplicate_chunks at hc
  split at hc
  · exact hc
  · rcases dedupGo_subset _ _ _ c hc with h | h
    · exact absurd h (List.not_mem_nil c)
    · exact (List.perm_insertionSort sizeGe l).mem_iff.1 h

/-- On a nested-or-disjoint family, `deduplicate_chunks` output is
pairwise non-overlapping. -/
theorem deduplicate_pairwise (P : Chunk → Prop)
    (hlam : ∀ a b, P a → P b → lamPair a b)
    (hspan : ∀ c, P c → c.start_byte ≤ c.end_byte)
    (l : List Chunk) (hP : ∀ c ∈ l, P c) :
    List.Pairwise (fun a b => ¬ chunksOverlap a b)
      (deduplicate_chunks l) := by
  unfold deduplicate_chunks
  split
  · have : l = [] := by
      rename List.isEmpty l = true => he
      exact List.isEmpty_iff.1 he
    rw [this]
    exact List.Pairwise.nil
  · have hmem : ∀ c ∈ l.insertionSort sizeGe, P c := fun c hc =>
      hP c ((List.perm_insertionSort sizeGe l).mem_iff.1 hc)
    have hsorted : List.Pairwise sizeGe (l.insertionSort sizeGe) :=
      List.sorted_insertionSort sizeGe l
    have hmain := dedupGo_pairwise P hlam hspan (l.insertionSort sizeGe) []
      hmem (fun c hc => absurd hc (List.not_mem_nil c)) hsorted
      (fun a ha => absurd ha (List.not_mem_nil a)) List.Pairwise.nil
    simpa using hmain

/-- `splitNl` never returns the empty list of pieces. -/
theorem splitNl_ne_nil (l : List Char) : splitNl l ≠ [] := by
  induction l with
  | nil => simp [splitNl]
  | cons c cs ih =>
    simp only [splitNl]
    split
    · simp
    · split <;> simp

/-- Joining the newline-split of a string recovers its length. -/
theorem joinLen_splitNl (l : List Char) : joinLen (splitNl l) = l.length := by
  induction l with
  | nil => rfl
  | cons c cs ih =>
    have hne := splitNl_ne_nil cs
    simp only [splitNl]
    split
    · simp only [joinLen, List.map_cons, List.sum_cons, List.length_cons] at ih ⊢
      have hpos : 0 < (splitNl cs).length := List.length_pos.2 hne
      simp only [List.length_nil]
      omega
    · split
      · rename_i heq
        exact absurd heq hne
      · rename_i l0 ls heq
        rw [heq] at ih
        simp only [joinLen, List.map_cons, List.sum_cons,
          List.length_cons] at ih ⊢
        omega

/-- Dropping the last piece cannot increase the joined length. -/
theorem joinLen_dropLast_le (ps : List (List Char)) :
    joinLen ps.dropLast ≤ joinLen ps := by
  rcases eq_or_ne ps [] with rfl | hne
  · simp [joinLen]
  · obtain ⟨qs, z, rfl⟩ : ∃ qs z, ps = qs ++ [z] :=
      ⟨ps.dropLast, ps.getLast hne, (List.dropLast_append_getLast hne).symm⟩
    rw [List.dropLast_concat]
    simp only [joinLen, List.map_append, List.sum_append, List.length_append,
      List.map_cons, List.map_nil, List.sum_cons, List.sum_nil,
      List.length_cons, List.length_nil]
    omega

/-- The lines `str::lines` yields occupy at most the string's length. -/
theorem joinLen_rustLines_le (content : List Char) :
    joinLen (rustLines content) ≤ content.length := by
  unfold rustLines
  split
  · simp [joinLen]
  · split
    · exact le_trans (joinLen_dropLast_le _)
        (le_of_eq (joinLen_splitNl content))
    · exact le_of_eq (joinLen_splitNl content)

/-- Starting a fresh accumulator with the next line needs no more bytes
than the joined remaining lines. -/
theorem splitWeight_le_cons (line : List Char) (rest : List (List Char)) :
    splitWeight line rest ≤ joinLen (line :: rest) := by
  unfold splitWeight
  split
  · simp only [joinLen, List.map_cons, List.sum_cons, List.length_cons]
    omega
  · split
    · rename_i h1 h2
      rw [h2]
      simp only [joinLen, List.map_cons, List.map_nil, List.sum_cons,
        List.sum_nil, List.length_cons, List.length_nil]
      omega
    · rename_i h1 h2
      have hpos : 0 < rest.length := List.length_pos.2 h2
      simp only [joinLen, List.map_cons, List.sum_cons, List.length_cons]
      omega

/-- Appending a newline and the next line to a non-empty accumulator
consumes exactly the bytes the loop accounts for. -/
theorem splitWeight_append_line (cur line : List Char)
    (rest : List (List Char)) (hcur : cur ≠ []) :
    splitWeight (cur ++ '\n' :: line) rest
      ≤ splitWeight cur (line :: rest) := by
  unfold splitWeight
  rw [if_neg hcur, if_neg (List.cons_ne_nil line rest),
    if_neg (by simp : cur ++ '\n' :: line ≠ [])]
  have hlen : (cur ++ '\n' :: line).length = cur.length + 1 + line.length := by
    simp only [List.length_append, List.length_cons]
    omega
  split
  · rename_i h
    rw [h, hlen]
    simp only [joinLen, List.map_cons, List.map_nil, List.sum_cons,
      List.sum_nil, List.length_cons, List.length_nil]
    omega
  · rename_i h
    have hpos : 0 < rest.length := List.length_pos.2 h
    rw [hlen]
    simp only [joinLen, List.map_cons, List.sum_cons, List.length_cons]
    omega

/-- The split loop, run with enough remaining budget, emits chunks lying
between `c.start_byte + current_start` and `c.end_byte`, each well-ranged,
and pairwise non-overlapping. -/
theorem splitLoop_spec (c : Chunk) (max_size min_size : Nat)
    (hse : c.start_byte ≤ c.end_byte)
    (hlen : c.content.length = c.end_byte - c.start_byte) :
    ∀ (lines : List (List Char)) (i cs : Nat) (cur : List Char) (cls : Nat),
      cs + splitWeight cur lines ≤ c.content.length →
      (∀ d ∈ splitLoop c max_size min_size lines i cs cur cls,
          c.start_byte + cs ≤ d.start_byte ∧ d.end_byte ≤ c.end_byte
            ∧ d.start_byte ≤ d.end_byte)
        ∧ List.Pairwise (fun a b => ¬ chunksOverlap a b)
            (splitLoop c max_size min_size lines i cs cur cls) := by
  intro lines
  induction lines with
  | nil =>
    intro i cs cur cls hw
    have hcs : cs ≤ c.content.length := le_trans (Nat.le_add_right cs _) hw
    constructor
    · intro d hd
      simp only [splitLoop] at hd
      split at hd
      · have hd' := List.mem_singleton.1 hd
        subst hd'
        refine ⟨le_refl _, le_refl _, ?_⟩
        show c.start_byte + cs ≤ c.end_byte
        omega
      · exact absurd hd (List.not_mem_nil d)
    · simp only [splitLoop]
      split
      · exact List.pairwise_singleton _ _
      · exact List.Pairwise.nil
  | cons line rest ih =>
    intro i cs cur cls hw
    have hw1 := splitWeight_le_cons line rest
    simp only [splitLoop]
    by_cases hc : max_size < cur.length + line.length + 1 ∧ cur ≠ []
    · rw [if_pos hc]
      have h2 : splitWeight cur (line :: rest)
          = cur.length + 1 + joinLen (line :: rest) := by
        unfold splitWeight
        rw [if_neg hc.2, if_neg (List.cons_ne_nil line rest)]
      have hwrec : (cs + cur.length + 1) + splitWeight line rest
          ≤ c.content.length := by omega
      obtain ⟨ihb, ihp⟩ := ih (i + 1) (cs + cur.length + 1) line
        (c.start_line + i) hwrec
      constructor
      · intro d hd
        rcases List.mem_cons.1 hd with rfl | hd
        · refine ⟨le_refl _, ?_, ?_⟩
          · show c.start_byte + cs + cur.length ≤ c.end_byte
            omega
          · show c.start_byte + cs ≤ c.start_byte + cs + cur.length
            omega
        · obtain ⟨hb1, hb2, hb3⟩ := ihb d hd
          exact ⟨by omega, hb2, hb3⟩
      · refine List.pairwise_cons.2 ⟨?_, ihp⟩
        intro d hd
        obtain ⟨hb1, hb2, hb3⟩ := ihb d hd
        intro hov
        simp only [chunksOverlap] at hov
        omega
    · rw [if_neg hc]
      have hwrec : cs + splitWeight
          (if cur = [] then line else cur ++ '\n' :: line) rest
            ≤ c.content.length := by
        by_cases hcur : cur = []
        · rw [if_pos hcur]
          have h2 : splitWeight cur (line :: rest) = joinLen (line :: rest) := by
            unfold splitWeight
            rw [if_pos hcur]
          omega
        · rw [if_neg hcur]
          have h3 := splitWeight_append_line cur line rest hcur
          omega
      exact ih (i + 1) cs (if cur = [] then line else cur ++ '\n' :: line)
        cls hwrec

/-- One `split_oversized_chunks` fold step appends that chunk's pieces. -/
theorem split_step_eq (max_size min_size : Nat) (result : List Chunk)
    (c : Chunk) :
    (if c.content.length ≤ max_size then
      if min_size ≤ c.content.length then result ++ [c] else result
    else result ++ splitLoop c max_size min_size (rustLines c.content)
      0 0 [] c.start_line)
      = result ++ stepPieces max_size min_size c := by
  unfold stepPieces
  split
  · split
    · rfl
    · simp
  · rfl

/-- The pieces of one well-ranged chunk stay inside its byte range and are
pairwise non-overlapping. -/
theorem stepPieces_spec (max_size min_size : Nat) (c : Chunk)
    (hse : c.start_byte ≤ c.end_byte)
    (hlen : c.content.length = c.end_byte - c.start_byte) :
    (∀ d ∈ stepPieces max_size min_size c,
        c.start_byte ≤ d.start_byte ∧ d.end_byte ≤ c.end_byte
          ∧ d.start_byte ≤ d.end_byte)
      ∧ List.Pairwise (fun a b => ¬ chunksOverlap a b)
          (stepPieces max_size min_size c) := by
  unfold stepPieces
  split
  · split
    · constructor
      · intro d hd
        rw [List.mem_singleton.1 hd]
        exact ⟨le_refl _, le_refl _, hse⟩
      · exact List.pairwise_singleton _ _
    · exact ⟨fun d hd => absurd hd (List.not_mem_nil d), List.Pairwise.nil⟩
  · have hw : 0 + splitWeight [] (rustLines c.content) ≤ c.content.length := by
      unfold splitWeight
      rw [if_pos rfl]
      simpa using joinLen_rustLines_le c.content
    obtain ⟨hb, hp⟩ := splitLoop_spec c max_size min_size hse hlen
      (rustLines c.content) 0 0 [] c.start_line hw
    refine ⟨?_, hp⟩
    intro d hd
    obtain ⟨h1, h2, h3⟩ := hb d hd
    exact ⟨by omega, h2, h3⟩

/-- The fold of `split_oversized_chunks` preserves pairwise
non-overlap, for well-ranged pairwise non-overlapping input chunks and an
accumulator whose members are separated from (or degenerate relative to)
the remaining input. -/
theorem split_fold_pairwise (max_size min_size : Nat) :
    ∀ (l acc : List Chunk),
      (∀ c ∈ l, c.start_byte ≤ c.end_byte
        ∧ c.content.length = c.end_byte - c.start_byte) →
      List.Pairwise (fun a b => ¬ chunksOverlap a b) l →
      List.Pairwise (fun a b => ¬ chunksOverlap a b) acc →
      (∀ d ∈ acc, ∀ c ∈ l,
          d.end_byte ≤ c.start_byte ∨ c.end_byte ≤ d.start_byte
            ∨ d.start_byte = d.end_byte ∨ c.start_byte = c.end_byte) →
      List.Pairwise (fun a b => ¬ chunksOverlap a b)
        (l.foldl (fun result c =>
          if c.content.length ≤ max_size then
            if min_size ≤ c.content.length then result ++ [c] else result
          else result ++ splitLoop c max_size min_size (rustLines c.content)
            0 0 [] c.start_line) acc) := by
  intro l
  induction l with
  | nil =>
    intro acc _ _ hacc _
    simpa using hacc
  | cons c rest ih =>
    intro acc hspanl hpwl hpwacc hsep
    simp only [List.foldl_cons]
    rw [split_step_eq]
    have hsc := hspanl c (List.mem_cons_self c rest)
    obtain ⟨hpb, hpp⟩ := stepPieces_spec max_size min_size c hsc.1 hsc.2
    apply ih
    · exact fun d hd => hspanl d (List.mem_cons_of_mem c hd)
    · exact (List.pairwise_cons.1 hpwl).2
    · rw [List.pairwise_append]
      refine ⟨hpwacc, hpp, ?_⟩
      intro d hd e he
      obtain ⟨he1, he2, he3⟩ := hpb e he
      have hsepdc := hsep d hd c (List.mem_cons_self c rest)
      intro hov
      simp only [chunksOverlap] at hov
      rcases hsepdc with h | h | h | h <;> omega
    · intro d hd cq hcq
      rcases List.mem_append.1 hd with h | h
      · exact hsep d h cq (List.mem_cons_of_mem c hcq)
      · obtain ⟨hd1, hd2, hd3⟩ := hpb d h
        have hccq := (List.pairwise_cons.1 hpwl).1 cq hcq
        have hscq := hspanl cq (List.mem_cons_of_mem c hcq)
        simp only [chunksOverlap] at hccq
        omega

/-- `split_oversized_chunks` of a well-ranged pairwise non-overlapping
list is pairwise non-overlapping. -/
theorem split_oversized_pairwise (max_size min_size : Nat) (l : List Chunk)
    (hspanl : ∀ c ∈ l, c.start_byte ≤ c.end_byte
      ∧ c.content.length = c.end_byte - c.start_byte)
    (hpwl : List.Pairwise (fun a b => ¬ chunksOverlap a b) l) :
    List.Pairwise (fun a b => ¬ chunksOverlap a b)
      (split_oversized_chunks max_size min_size l) := by
  unfold split_oversized_chunks
  exact split_fold_pairwise max_size min_size l [] hspanl hpwl
    List.Pairwise.nil (fun d hd => absurd hd (List.not_mem_nil d))

/-- **C1 (amended).**  On a well-formed parse tree the chunker's output
has pairwise non-overlapping byte ranges — the no-overlap half of the
claim holds.  (The ascending-`start_byte` half is false:
`treesitter_chunk_unsorted_cex`.) -/
theorem treesitter_chunk_no_overlap (max_size min_size : Nat)
    (src : List Char) (cfg : LanguageConfig) (t : TSNode)
    (hwf : TSNode.Wf src.length t) :
    List.Pairwise (fun a b => ¬ chunksOverlap a b)
      (treesitter_chunk max_size min_size src cfg t) := by
  unfold treesitter_chunk
  apply split_oversized_pairwise
  · intro c hc
    have hmem := deduplicate_subset _ c hc
    have hmem2 : c ∈ extractChunks src cfg t none :=
      (List.perm_insertionSort startByteLe _).mem_iff.1 hmem
    have hs := (extract_span hwf none c hmem2).2.2
    exact ⟨hs.1, hs.2.2⟩
  · apply deduplicate_pairwise (fun d => d ∈ extractChunks src cfg t none)
    · exact fun a b ha hb => extract_lam hwf none a b ha hb
    · exact fun d hd => (extract_span hwf none d hd).2.2.1
    · exact fun d hd => (List.perm_insertionSort startByteLe _).mem_iff.1 hd

/-- Witness for `treesitter_chunk_no_overlap`: the concrete two-item tree
of the counterexample is well-formed, and the amended theorem applies. -/
theorem treesitter_chunk_no_overlap_witness :
    TSNode.Wf srcEx.length rootNode
      ∧ List.Pairwise (fun a b => ¬ chunksOverlap a b)
          (treesitter_chunk 1500 50 srcEx rustConfig rootNode) := by
  have hfn : TSNode.Wf 180 fnNode := by
    show TSNode.Wf 180 (TSNode.mk "function_item" 0 60 0 3 [] [])
    refine TSNode.Wf.mk _ _ _ _ _ _ _ (by omega) (by omega) ?_ ?_ ?_
    · intro x hx
      exact absurd hx (List.not_mem_nil x)
    · exact List.Pairwise.nil
    · intro x hx
      exact absurd hx (List.not_mem_nil x)
  have hst : TSNode.Wf 180 structNode := by
    show TSNode.Wf 180 (TSNode.mk "struct_item" 80 180 5 10 [] [])
    refine TSNode.Wf.mk _ _ _ _ _ _ _ (by omega) (by omega) ?_ ?_ ?_
    · intro x hx
      exact absurd hx (List.not_mem_nil x)
    · exact List.Pairwise.nil
    · intro x hx
      exact absurd hx (List.not_mem_nil x)
  have hwf : TSNode.Wf srcEx.length rootNode := by
    have hlen : srcEx.length = 180 := List.length_replicate 180 'a'
    rw [hlen]
    show TSNode.Wf 180
      (TSNode.mk "source_file" 0 180 0 10 [] [fnNode, structNode])
    refine TSNode.Wf.mk _ _ _ _ _ _ _ (by omega) (by omega) ?_ ?_ ?_
    · intro ch hch
      simp only [List.mem_cons, List.mem_singleton] at hch
      rcases hch with rfl | rfl | hch
      · exact ⟨by decide, by decide⟩
      · exact ⟨by decide, by decide⟩
      · exact absurd hch (List.not_mem_nil ch)
    · refine List.pairwise_cons.2 ⟨?_, List.pairwise_singleton _ _⟩
      intro b hb
      rw [List.mem_singleton.1 hb]
      decide
    · intro ch hch
      simp only [List.mem_cons, List.mem_singleton] at hch
      rcases hch with rfl | rfl | hch
      · exact hfn
      · exact hst
      · exact absurd hch (List.not_mem_nil ch)
  exact ⟨hwf, treesitter_chunk_no_overlap 1500 50 srcEx rustConfig rootNode hwf⟩

end Sgrep
